import Mathlib

/-! ## fixed_point_math: fixed-point representation, decimal display, rounding, scaling

Shallow embedding of `src/fixed_point_math.cpp` (and of the conversion macros of
`src/fixed_point_math2.cpp`).  Machine integers are natural numbers; every store into a
`uint16_t`, `uint32_t` or `uint64_t` object is an explicit reduction modulo `2^16`, `2^32`
or `2^64`.
-/

namespace FixedPointMath

/-! ## Word sizes -/

/-- Number of values of a `uint16_t`. -/
def UINT16_MOD : Nat := 2 ^ 16

/-- Number of values of a `uint32_t` (the type `fixed_point_t`). -/
def UINT32_MOD : Nat := 2 ^ 32

/-- Number of values of a `uint64_t`. -/
def UINT64_MOD : Nat := 2 ^ 64

/-! ## Constants of the representation (`fixed_point_math.cpp` lines 34-36) -/

/-- Macro `FRACTION_BITS`. -/
def FRACTION_BITS : Nat := 16

/-- Macro `FRACTION_DIVISOR`, `(1 << FRACTION_BITS)`. -/
def FRACTION_DIVISOR : Nat := 1 <<< FRACTION_BITS

/-- Macro `FRACTION_MASK`, `(FRACTION_DIVISOR - 1)`. -/
def FRACTION_MASK : Nat := FRACTION_DIVISOR - 1

/-! ## Whole-number range (`fixed_point_math.cpp` lines 32, 51-52) -/

/-- Macro `BITS_PER_BYTE`. -/
def BITS_PER_BYTE : Nat := 8

/-- Size in bytes of `fixed_point_t`, a `uint32_t`. -/
def SIZEOF_FIXED_POINT_T : Nat := 4

/-- Constant `WHOLE_NUM_BITS`, `sizeof(fixed_point_t)*BITS_PER_BYTE - FRACTION_BITS`, stored
in a `uint8_t`. -/
def WHOLE_NUM_BITS : Nat := (SIZEOF_FIXED_POINT_T * BITS_PER_BYTE - FRACTION_BITS) % 2 ^ 8

/-- Constant `MAX_WHOLE_NUM`, `(1 << WHOLE_NUM_BITS) - 1`, stored in a `fixed_point_t`. -/
def MAX_WHOLE_NUM : Nat := ((1 <<< WHOLE_NUM_BITS) - 1) % UINT32_MOD

/-! ## Conversions (`fixed_point_math2.cpp` lines 30-31, `fixed_point_math.cpp` line 59) -/

/-- Macro `NUM_2_FIXED_PT(num)`, `(num << FRACTION_BITS)`, evaluated on a `uint32_t`. -/
def NUM_2_FIXED_PT (num : Nat) : Nat := (num <<< FRACTION_BITS) % UINT32_MOD

/-- Macro `FIXED_PT_2_NUM(fp_num)`, `(fp_num >> FRACTION_BITS)`. -/
def FIXED_PT_2_NUM (fp_num : Nat) : Nat := fp_num >>> FRACTION_BITS

/-! ## Arithmetic on a price (`fixed_point_math.cpp` lines 59-62) -/

/-- Line 60, `price += 10 << FRACTION_BITS`, for any whole number in place of `10`. -/
def price_add (price whole : Nat) : Nat := (price + (whole <<< FRACTION_BITS)) % UINT32_MOD

/-- Line 61, `price *= 3`, for any factor in place of `3`. -/
def price_mul (price factor : Nat) : Nat := (price * factor) % UINT32_MOD

/-- Line 62, `price /= 7`, for any divisor in place of `7`. -/
def price_div (price divisor : Nat) : Nat := price / divisor

/-! ## Manual floats (`fixed_point_math.cpp` lines 85-110) -/

/-- The second printf argument of the manual-float lines,
`(uint64_t)(price & FRACTION_MASK) * 10^N / FRACTION_DIVISOR`; the source writes the
multiplier as the literal `10`, `100`, ..., `1000000`.  The multiply is a `uint64_t` one. -/
def fraction_digits (price N : Nat) : Nat :=
  (((price &&& FRACTION_MASK) % UINT64_MOD) * 10 ^ N % UINT64_MOD) / FRACTION_DIVISOR

/-- Conversion `%u` of printf: the decimal digits of the argument. -/
def printf_u (v : Nat) : List Char := Nat.toDigits 10 v

/-- Conversion `%0Wlu` of printf: the decimal digits of the argument, padded on the left
with `'0'` up to the field width `W`. -/
def printf_0lu (W v : Nat) : List Char :=
  List.replicate (W - (Nat.toDigits 10 v).length) '0' ++ Nat.toDigits 10 v

/-- The characters printed after the decimal separator by the manual-float line for `N`
digits: nothing for `N = 0` (line 85 prints the whole number alone), the `%0Nlu` field
otherwise. -/
def fraction_field (price N : Nat) : List Char :=
  if N = 0 then [] else printf_0lu N (fraction_digits price N)

/-- The number a manual-float line shows, read without its decimal separator: the whole
number followed by the `N` fractional digits. -/
def manual_float (price N : Nat) : Nat :=
  FIXED_PT_2_NUM price * 10 ^ N + fraction_digits price N

/-- Lines 59-62 together, for any whole numbers, factor and divisor in place of 503, 10, 3
and 7: `price = n << 16; price += m << 16; price *= k; price /= d`. -/
def scaled_price (n m k d : Nat) : Nat :=
  price_div (price_mul (price_add (NUM_2_FIXED_PT n) m) k) d

/-- The text a manual-float line prints for the price, between `is ` and the closing full
stop: `%u` alone for 0 digits (line 85), `%u.%0Nlu` otherwise (lines 88-109). -/
def manual_float_text (price N : Nat) : List Char :=
  printf_u (price >>> FRACTION_BITS) ++ (if N = 0 then [] else '.' :: fraction_field price N)

/-- The price of `fixed_point_math.cpp` (lines 58-62): 503 and 10 summed, times 3, over 7. -/
def main_price : Nat := price_div (price_mul (price_add (NUM_2_FIXED_PT 503) 10) 3) 7

/-- The price of the earlier versions (`fixed_point_math1_copy.c` lines 31-34,
`fixed_point_math2.cpp` lines 46-49, `fixed_point_math3_copy.c` lines 46-49): 500 and 10
summed, times 3, over 7. -/
def early_price : Nat := price_div (price_mul (price_add (NUM_2_FIXED_PT 500) 10) 3) 7

/-! ## Rounding addends (`fixed_point_math.cpp` lines 156-177) -/

/-- The rounding addends `addend0` .. `addend5`: `FRACTION_DIVISOR/2`, `/20`, `/200`, ...,
stored in a `fixed_point_t`. -/
def addend (N : Nat) : Nat := (FRACTION_DIVISOR / (2 * 10 ^ N)) % UINT32_MOD

/-- The rounded prices `price_rounded0` .. `price_rounded5`: `price + addendN` in
`fixed_point_t` arithmetic. -/
def price_rounded (price N : Nat) : Nat := (price + addend N) % UINT32_MOD

/-! ## Rounding in `fixed_point_math3_copy.c` (lines 99-103) -/

/-- The value added to the price for `price_rounded1` .. `price_rounded5`:
`(1 << (FRACTION_BITS - k))/2/10^k` with `k` one less than the number of digits; the source
writes `10^k` as the literal `1`, `10`, ..., `10000`. -/
def v3_addend (digits : Nat) : Nat :=
  (1 <<< (FRACTION_BITS - (digits - 1))) / 2 / 10 ^ (digits - 1)

/-- The values `price_rounded1` .. `price_rounded5` of `fixed_point_math3_copy.c`, each
commented as rounding to that many decimal digits. -/
def v3_price_rounded (price digits : Nat) : Nat := (price + v3_addend digits) % UINT32_MOD

/-! ## The resolution diagnostic (`fixed_point_math.cpp` lines 407-443) -/

/-- Array `POW_BASE_10`: the value at an index is ten to that index, for indices 0 to 9. -/
def POW_BASE_10 : List Nat :=
  [1, 10, 100, 1000, 10000, 100000, 1000000, 10000000, 100000000, 1000000000]

/-- Function `print_if_error_introduced`, as a step on the static flag `already_found`:
from the flag and the `uint8_t` argument it gives the new flag and whether the warning was
printed.  There is no result when the array is read out of its bounds. -/
def print_if_error_introduced (already_found : Bool) (num_digits_after_decimal : Nat) :
    Option (Bool × Bool) :=
  if already_found = true then some (already_found, false)
  else
    match POW_BASE_10[num_digits_after_decimal % 2 ^ 8]? with
    | none => none
    | some p => if p > FRACTION_DIVISOR then some (true, true) else some (already_found, false)

/-- A sequence of calls of `print_if_error_introduced`, threading the flag: the final flag
and, call by call, whether the warning was printed. -/
def call_sequence (already_found : Bool) : List Nat → Option (Bool × List Bool)
  | [] => some (already_found, [])
  | n :: rest =>
    match print_if_error_introduced already_found n with
    | none => none
    | some (flag, printed) =>
      match call_sequence flag rest with
      | none => none
      | some (last, prints) => some (last, printed :: prints)

/-! ## Scaling a 16-bit number by a fraction (`fixed_point_math.cpp` lines 216-264) -/

/-- The printed true answer (lines 223 and 274): `(uint32_t)num16*times/divide`, the
multiply done first and in 32 bits. -/
def true_answer (num16 times divide : Nat) : Nat :=
  (num16 * times) % UINT32_MOD / divide

/-- First approach (line 226): `num16/divide * times`, stored in a `uint16_t`. -/
def divide_first (num16 times divide : Nat) : Nat :=
  (num16 / divide * times) % UINT16_MOD

/-- Upper half of the far-right split (line 239): `num16 >> 8`. -/
def right_upper8 (num16 : Nat) : Nat := (num16 >>> 8) % UINT16_MOD

/-- Lower half of the far-right split (line 240): `num16 & 0xFF`. -/
def right_lower8 (num16 : Nat) : Nat := (num16 &&& 0xFF) % UINT16_MOD

/-- Second approach (lines 239-245): both halves at the far right of a `uint16_t`. -/
def right_aligned (num16 times divide : Nat) : Nat :=
  let num16_upper8 := right_upper8 num16
  let num16_lower8 := right_lower8 num16
  let num16_upper8 := (num16_upper8 * times) % UINT16_MOD
  let num16_lower8 := (num16_lower8 * times) % UINT16_MOD
  let num16_upper8 := (num16_upper8 / divide) % UINT16_MOD
  let num16_lower8 := (num16_lower8 / divide) % UINT16_MOD
  ((num16_upper8 <<< 8) + num16_lower8) % UINT16_MOD

/-- Upper half of the centered split (line 256): `(num16 >> 4) & 0x0FF0`. -/
def center_upper8 (num16 : Nat) : Nat := ((num16 >>> 4) &&& 0x0FF0) % UINT16_MOD

/-- Lower half of the centered split (line 257): `(num16 << 4) & 0x0FF0`. -/
def center_lower8 (num16 : Nat) : Nat := ((num16 <<< 4) &&& 0x0FF0) % UINT16_MOD

/-- Third approach (lines 256-262): both halves in the center of a `uint16_t`. -/
def centered (num16 times divide : Nat) : Nat :=
  let num16_upper8 := center_upper8 num16
  let num16_lower8 := center_lower8 num16
  let num16_upper8 := (num16_upper8 * times) % UINT16_MOD
  let num16_lower8 := (num16_lower8 * times) % UINT16_MOD
  let num16_upper8 := (num16_upper8 / divide) % UINT16_MOD
  let num16_lower8 := (num16_lower8 / divide) % UINT16_MOD
  ((num16_upper8 <<< 4) + (num16_lower8 >>> 4)) % UINT16_MOD

/-! ## Shifts and masks as division and remainder -/

theorem shiftRight_fraction_bits (x : Nat) : x >>> FRACTION_BITS = x / 65536 := by
  simp [FRACTION_BITS, Nat.shiftRight_eq_div_pow]

theorem shiftLeft_fraction_bits (x : Nat) : x <<< FRACTION_BITS = x * 65536 := by
  simp [FRACTION_BITS, Nat.shiftLeft_eq]

theorem fraction_divisor_eq : FRACTION_DIVISOR = 65536 := by
  simp [FRACTION_DIVISOR, FRACTION_BITS, Nat.shiftLeft_eq]

theorem and_fraction_mask (x : Nat) : x &&& FRACTION_MASK = x % 65536 := by
  have h := Nat.and_pow_two_sub_one_eq_mod x 16
  simpa [FRACTION_MASK, fraction_divisor_eq] using h

theorem pow_ten_le (N : Nat) (hN : N ≤ 6) : 10 ^ N ≤ 1000000 := by
  calc 10 ^ N ≤ 10 ^ 6 := Nat.pow_le_pow_right (by decide) hN
    _ = 1000000 := by norm_num

/-- The 64-bit multiply of the manual-float lines does not wrap. -/
theorem fraction_digits_eq (price N : Nat) (hN : N ≤ 6) :
    fraction_digits price N = price % 65536 * 10 ^ N / 65536 := by
  have hp := pow_ten_le N hN
  have hr : price % 65536 < 65536 := Nat.mod_lt _ (by decide)
  have hprod : price % 65536 * 10 ^ N ≤ 65536 * 1000000 :=
    Nat.mul_le_mul (Nat.le_of_lt hr) hp
  unfold fraction_digits
  rw [and_fraction_mask, fraction_divisor_eq]
  have h1 : price % 65536 % UINT64_MOD = price % 65536 :=
    Nat.mod_eq_of_lt (by simp only [UINT64_MOD]; omega)
  rw [h1, Nat.mod_eq_of_lt (by simp only [UINT64_MOD]; omega)]

/-- A manual float is the scaled raw value divided by `2^16`, rounded down. -/
theorem manual_float_eq (price N : Nat) (hN : N ≤ 6) :
    manual_float price N = price * 10 ^ N / 65536 := by
  unfold manual_float FIXED_PT_2_NUM
  rw [fraction_digits_eq price N hN, shiftRight_fraction_bits]
  generalize 10 ^ N = t
  have hsplit : price * t = price % 65536 * t + 65536 * (price / 65536 * t) := by
    conv_lhs => rw [← Nat.mod_add_div price 65536]
    ring
  rw [hsplit, Nat.add_mul_div_left _ _ (by decide : 0 < 65536)]
  omega

theorem addend_values :
    addend 0 = 32768 ∧ addend 1 = 3276 ∧ addend 2 = 327 ∧ addend 3 = 32 ∧ addend 4 = 3 := by
  simp [addend, fraction_divisor_eq, UINT32_MOD]

/-- The floor of a quotient of naturals, taken in the rationals, is the natural quotient. -/
theorem floor_rat_div (a b : Nat) : ⌊(a : ℚ) / (b : ℚ)⌋₊ = a / b :=
  Nat.floor_div_eq_div a b

theorem digitChar_isDigit (k : Nat) (hk : k < 10) : (Nat.digitChar k).isDigit = true := by
  interval_cases k <;> decide

theorem toDigitsCore_isDigit (f : Nat) : ∀ (n : Nat) (acc : List Char),
    (∀ c ∈ acc, c.isDigit = true) → ∀ c ∈ Nat.toDigitsCore 10 f n acc, c.isDigit = true := by
  induction f with
  | zero =>
    intro n acc hacc c hc
    exact hacc c (by simpa [Nat.toDigitsCore] using hc)
  | succ f ih =>
    intro n acc hacc c hc
    have hcons : ∀ c ∈ Nat.digitChar (n % 10) :: acc, c.isDigit = true := by
      intro c hc
      rcases List.mem_cons.mp hc with rfl | h
      · exact digitChar_isDigit _ (Nat.mod_lt _ (by decide))
      · exact hacc c h
    simp only [Nat.toDigitsCore] at hc
    split at hc
    · exact hcons c hc
    · exact ih _ _ hcons c hc

/-- Every character of a `%0Wlu` field is a decimal digit. -/
theorem printf_0lu_isDigit (W v : Nat) : ∀ c ∈ printf_0lu W v, c.isDigit = true := by
  intro c hc
  rcases List.mem_append.mp hc with h | h
  · rw [(List.mem_replicate.mp h).2]
    decide
  · exact toDigitsCore_isDigit (v + 1) v [] (by simp) c h

/-- The `%0Wlu` field of a value below `10^W` is exactly `W` characters wide. -/
theorem printf_0lu_length (W v : Nat) (hW : 0 < W) (hv : v < 10 ^ W) :
    (printf_0lu W v).length = W := by
  have hlen : (Nat.toDigits 10 v).length ≤ W :=
    Nat.toDigitsCore_length 10 (by decide) (v + 1) v W hv hW
  simp only [printf_0lu, List.length_append, List.length_replicate]
  omega

/-! ## The two splits of a 16-bit number, arithmetically -/

/-- Masking with `0x0FF0` keeps bits 4 to 11. -/
theorem and_0FF0 (y : Nat) : y &&& 0x0FF0 = y / 16 % 256 * 16 := by
  have hmask : (0x0FF0 : Nat) = (2 ^ 8 - 1) <<< 4 := by decide
  have hval : y / 16 % 256 * 16 = ((y >>> 4) % 2 ^ 8) <<< 4 := by
    simp [Nat.shiftLeft_eq, Nat.shiftRight_eq_div_pow]
  rw [hmask, hval]
  apply Nat.eq_of_testBit_eq
  intro i
  simp only [Nat.testBit_and, Nat.testBit_shiftLeft, Nat.testBit_mod_two_pow,
    Nat.testBit_shiftRight, Nat.testBit_two_pow_sub_one]
  by_cases h4 : i ≥ 4
  · have hi : 4 + (i - 4) = i := by omega
    simp [h4, hi, Bool.and_comm]
  · simp [h4]

theorem right_upper8_eq (x : Nat) (hx : x < 2 ^ 16) : right_upper8 x = x / 256 := by
  simp only [right_upper8, UINT16_MOD, Nat.shiftRight_eq_div_pow]
  omega

theorem right_lower8_eq (x : Nat) : right_lower8 x = x % 256 := by
  have h := Nat.and_pow_two_sub_one_eq_mod x 8
  norm_num at h
  simp only [right_lower8, UINT16_MOD, h]
  omega

theorem center_upper8_eq (x : Nat) (hx : x < 2 ^ 16) : center_upper8 x = x / 256 * 16 := by
  simp only [center_upper8, UINT16_MOD, and_0FF0, Nat.shiftRight_eq_div_pow]
  omega

theorem center_lower8_eq (x : Nat) : center_lower8 x = x % 256 * 16 := by
  simp only [center_lower8, UINT16_MOD, and_0FF0, Nat.shiftLeft_eq]
  omega

/-- Scaling by a proper fraction does not increase a number. -/
theorem mul_div_le_of_le (a n d : Nat) (hnd : n ≤ d) : a * n / d ≤ a :=
  Nat.div_le_of_le_mul (by rw [Nat.mul_comm d a]; exact Nat.mul_le_mul_left a hnd)

/-- The sum of two rounded-down quotients is at most the rounded-down quotient of the sum. -/
theorem div_add_div_le (a b d : Nat) (hd : 0 < d) : a / d + b / d ≤ (a + b) / d := by
  rw [Nat.le_div_iff_mul_le hd, Nat.add_mul]
  exact Nat.add_le_add (Nat.div_mul_le_self a d) (Nat.div_mul_le_self b d)

/-- No step of the far-right split wraps while `times <= 257` and `times <= divide`. -/
theorem right_aligned_eq (x n d : Nat) (hx : x < 2 ^ 16) (hn : n ≤ 257) (hnd : n ≤ d) :
    right_aligned x n d = 256 * (x / 256 * n / d) + x % 256 * n / d := by
  have hH : x / 256 ≤ 255 := by omega
  have hL : x % 256 ≤ 255 := by omega
  have hHn : x / 256 * n ≤ 255 * 257 := Nat.mul_le_mul hH hn
  have hLn : x % 256 * n ≤ 255 * 257 := Nat.mul_le_mul hL hn
  have hHq : x / 256 * n / d ≤ x / 256 := mul_div_le_of_le _ n d hnd
  have hLq : x % 256 * n / d ≤ x % 256 := mul_div_le_of_le _ n d hnd
  simp only [right_aligned, right_upper8_eq x hx, right_lower8_eq, UINT16_MOD,
    Nat.shiftLeft_eq]
  rw [Nat.mod_eq_of_lt (show x / 256 * n < 2 ^ 16 by omega),
    Nat.mod_eq_of_lt (show x % 256 * n < 2 ^ 16 by omega),
    Nat.mod_eq_of_lt (show x / 256 * n / d < 2 ^ 16 by omega),
    Nat.mod_eq_of_lt (show x % 256 * n / d < 2 ^ 16 by omega)]
  generalize x / 256 * n / d = qh at hHq ⊢
  generalize x % 256 * n / d = ql at hLq ⊢
  omega

/-- No step of the centered split wraps while `times <= 16` and `times <= divide`. -/
theorem centered_eq (x n d : Nat) (hx : x < 2 ^ 16) (_hd : 0 < d) (hn : n ≤ 16)
    (hnd : n ≤ d) :
    centered x n d = 16 * (x / 256 * 16 * n / d) + x % 256 * n / d := by
  have hH : x / 256 * 16 ≤ 4080 := by omega
  have hL : x % 256 * 16 ≤ 4080 := by omega
  have hHn : x / 256 * 16 * n ≤ 4080 * 16 := Nat.mul_le_mul hH hn
  have hLn : x % 256 * 16 * n ≤ 4080 * 16 := Nat.mul_le_mul hL hn
  have hHq : x / 256 * 16 * n / d ≤ x / 256 * 16 := mul_div_le_of_le _ n d hnd
  have hLq : x % 256 * 16 * n / d ≤ x % 256 * 16 := mul_div_le_of_le _ n d hnd
  have hlow : x % 256 * 16 * n / d / 16 = x % 256 * n / d := by
    rw [Nat.div_div_eq_div_mul, Nat.mul_comm d 16,
      show x % 256 * 16 * n = 16 * (x % 256 * n) by ring,
      Nat.mul_div_mul_left _ _ (by decide : 0 < 16)]
  simp only [centered, center_upper8_eq x hx, center_lower8_eq, UINT16_MOD,
    Nat.shiftLeft_eq, Nat.shiftRight_eq_div_pow]
  rw [Nat.mod_eq_of_lt (show x / 256 * 16 * n < 2 ^ 16 by omega),
    Nat.mod_eq_of_lt (show x % 256 * 16 * n < 2 ^ 16 by omega),
    Nat.mod_eq_of_lt (show x / 256 * 16 * n / d < 2 ^ 16 by omega),
    Nat.mod_eq_of_lt (show x % 256 * 16 * n / d < 2 ^ 16 by omega)]
  norm_num
  rw [hlow]
  have hLq2 : x % 256 * n / d ≤ x % 256 := mul_div_le_of_le _ n d hnd
  generalize x / 256 * 16 * n / d = qh at hHq ⊢
  generalize x % 256 * n / d = ql at hLq2 ⊢
  omega

/-- Dividing first never exceeds the exact scaled value. -/
theorem div_mul_le_mul_div (x n d : Nat) : x / d * n ≤ x * n / d := by
  rcases Nat.eq_zero_or_pos d with rfl | hd
  · simp
  · rw [Nat.le_div_iff_mul_le hd]
    calc x / d * n * d = x / d * d * n := by ring
      _ ≤ x * n := Nat.mul_le_mul_right n (Nat.div_mul_le_self x d)

/-- The far-right split never exceeds the centered split inside the centered safe range. -/
theorem right_aligned_le_centered (x n d : Nat) (hx : x < 2 ^ 16) (hd : 0 < d)
    (hn : n ≤ 16) (hnd : n ≤ d) : right_aligned x n d ≤ centered x n d := by
  rw [right_aligned_eq x n d hx (by omega) hnd, centered_eq x n d hx hd hn hnd]
  have h16 : 16 * (x / 256 * n / d) ≤ x / 256 * 16 * n / d := by
    have h := Nat.mul_div_le_mul_div_assoc 16 (x / 256 * n) d
    rwa [show 16 * (x / 256 * n) = x / 256 * 16 * n by ring] at h
  omega

/-- The centered split never exceeds the exact scaled value inside its safe range. -/
theorem centered_le_exact (x n d : Nat) (hx : x < 2 ^ 16) (hd : 0 < d)
    (hn : n ≤ 16) (hnd : n ≤ d) : centered x n d ≤ x * n / d := by
  rw [centered_eq x n d hx hd hn hnd]
  have h16 : 16 * (x / 256 * 16 * n / d) ≤ 256 * (x / 256) * n / d := by
    have h := Nat.mul_div_le_mul_div_assoc 16 (x / 256 * 16 * n) d
    rwa [show 16 * (x / 256 * 16 * n) = 256 * (x / 256) * n by ring] at h
  have hsum := div_add_div_le (256 * (x / 256) * n) (x % 256 * n) d hd
  have hx' : 256 * (x / 256) * n + x % 256 * n = x * n := by
    rw [← Nat.add_mul, Nat.div_add_mod]
  rw [hx'] at hsum
  omega

/-! ## C1: integer round trip -/

/-- C1: for every whole number `n` with `0 <= n <= 2^16 - 1`, converting `n` to fixed point
by the 32-bit shift `n << 16` and extracting the integer part by `>> 16` returns `n`. -/
theorem integer_round_trip (n : Nat) (hn : n ≤ 2 ^ 16 - 1) :
    FIXED_PT_2_NUM (NUM_2_FIXED_PT n) = n := by
  unfold FIXED_PT_2_NUM NUM_2_FIXED_PT
  rw [shiftRight_fraction_bits, shiftLeft_fraction_bits]
  simp only [UINT32_MOD]
  norm_num at hn
  omega

theorem integer_round_trip_witness :
    (65535 : Nat) ≤ 2 ^ 16 - 1 ∧ FIXED_PT_2_NUM (NUM_2_FIXED_PT 65535) = 65535 :=
  ⟨by decide, integer_round_trip 65535 (by decide)⟩

/-! ## C2: a manual float is the truncation of the represented value -/

/-- C2: for every 32-bit `raw` and every `N` in `0..6`, the whole number times `10^N` plus
the fractional-digits value (its multiply done in 64 bits) equals
`floor(raw * 10^N / 2^16)`, both as the natural quotient and as the floor of the exact
rational: the digits are truncated, never rounded. -/
theorem manual_float_truncates (raw N : Nat) (_hraw : raw < 2 ^ 32) (hN : N ≤ 6) :
    (raw >>> 16) * 10 ^ N
        + (((raw &&& 65535) % UINT64_MOD) * 10 ^ N % UINT64_MOD) / 65536
      = manual_float raw N
    ∧ manual_float raw N = raw * 10 ^ N / 2 ^ 16
    ∧ manual_float raw N = ⌊(raw : ℚ) * 10 ^ N / 2 ^ 16⌋₊ := by
  refine ⟨rfl, ?_, ?_⟩
  · rw [manual_float_eq raw N hN]
    norm_num
  · have hq : (raw : ℚ) * 10 ^ N / 2 ^ 16 = ((raw * 10 ^ N : Nat) : ℚ) / ((65536 : Nat) : ℚ) := by
      push_cast
      norm_num
    rw [manual_float_eq raw N hN, hq, floor_rat_div]

theorem manual_float_truncates_witness :
    (14408557 : Nat) < 2 ^ 32 ∧ 4 ≤ 6 ∧ manual_float 14408557 4 = 14408557 * 10 ^ 4 / 2 ^ 16 :=
  ⟨by decide, by decide, (manual_float_truncates 14408557 4 (by decide) (by decide)).2.1⟩

/-! ## C3: the fractional field is exactly N digits wide -/

/-- C3: for every 32-bit `raw` and every `N` in `0..6`, the fractional-digits value
`(raw & 65535) * 10^N / 65536` is strictly below `10^N`, and the characters the
manual-float line prints for it (the `%0Nlu` field) are exactly `N` in number and are all
decimal digits. -/
theorem fraction_digits_width (raw N : Nat) (_hraw : raw < 2 ^ 32) (hN : N ≤ 6) :
    fraction_digits raw N = (raw &&& 65535) * 10 ^ N / 65536
    ∧ fraction_digits raw N < 10 ^ N
    ∧ (fraction_field raw N).length = N
    ∧ (∀ c ∈ fraction_field raw N, c.isDigit = true) := by
  have hval : fraction_digits raw N = raw % 65536 * 10 ^ N / 65536 :=
    fraction_digits_eq raw N hN
  have hmask : raw &&& 65535 = raw % 65536 := Nat.and_pow_two_sub_one_eq_mod raw 16
  have hlt : fraction_digits raw N < 10 ^ N := by
    rw [hval, Nat.div_lt_iff_lt_mul (by decide : 0 < 65536)]
    have hr : raw % 65536 < 65536 := Nat.mod_lt _ (by decide)
    calc raw % 65536 * 10 ^ N < 65536 * 10 ^ N :=
          Nat.mul_lt_mul_of_pos_right hr (pow_pos (by decide) N)
      _ = 10 ^ N * 65536 := Nat.mul_comm _ _
  refine ⟨by rw [hval, hmask], hlt, ?_, ?_⟩
  · unfold fraction_field
    by_cases h0 : N = 0
    · simp [h0]
    · rw [if_neg h0]
      exact printf_0lu_length N _ (Nat.pos_of_ne_zero h0) hlt
  · intro c hc
    unfold fraction_field at hc
    by_cases h0 : N = 0
    · simp [h0] at hc
    · rw [if_neg h0] at hc
      exact printf_0lu_isDigit N _ c hc

theorem fraction_digits_width_witness :
    (14408557 : Nat) < 2 ^ 32 ∧ 5 ≤ 6 ∧ (fraction_field 14408557 5).length = 5 :=
  ⟨by decide, by decide, (fraction_digits_width 14408557 5 (by decide) (by decide)).2.2.1⟩

/-! ## C4: rounding to 0 digits is exact round-half-up -/

/-- C4: for every 32-bit `raw` with `raw + 32768 < 2^32`, the integer part of
`raw + FRACTION_DIVISOR/2` equals `floor(raw / 2^16 + 1/2)`, the represented value rounded
half-up to the nearest whole number. -/
theorem round_to_zero_digits_half_up (raw : Nat) (_hraw : raw < 2 ^ 32)
    (hsum : raw + 32768 < 2 ^ 32) :
    addend 0 = FRACTION_DIVISOR / 2
    ∧ price_rounded raw 0 = raw + FRACTION_DIVISOR / 2
    ∧ price_rounded raw 0 >>> FRACTION_BITS = ⌊(raw : ℚ) / 2 ^ 16 + 1 / 2⌋₊ := by
  have ha : addend 0 = 32768 := addend_values.1
  have hp : price_rounded raw 0 = raw + 32768 := by
    unfold price_rounded
    rw [ha]
    exact Nat.mod_eq_of_lt (by simpa [UINT32_MOD] using hsum)
  refine ⟨by rw [ha, fraction_divisor_eq], by rw [hp, fraction_divisor_eq], ?_⟩
  have hq : (raw : ℚ) / 2 ^ 16 + 1 / 2 = ((raw + 32768 : Nat) : ℚ) / ((65536 : Nat) : ℚ) := by
    push_cast
    ring
  rw [hp, shiftRight_fraction_bits, hq, floor_rat_div]

theorem round_to_zero_digits_half_up_witness :
    (98304 : Nat) < 2 ^ 32 ∧ 98304 + 32768 < 2 ^ 32
      ∧ price_rounded 98304 0 >>> FRACTION_BITS = ⌊((98304 : Nat) : ℚ) / 2 ^ 16 + 1 / 2⌋₊ :=
  ⟨by decide, by decide, (round_to_zero_digits_half_up 98304 (by decide) (by decide)).2.2⟩

/-! ## C5: rounding to N digits with the truncated addends -/

/-- C5, as stated, fails at `raw = 16384` (the value 0.25) and `N = 1`: the addend is
`65536 / 20 = 3276`, the rounded price displays `2` (that is 0.2), while 0.25 rounded
half-up to one digit is `3` (that is 0.3). -/
theorem round_to_digits_not_half_up :
    (1 ≤ 1 ∧ 1 ≤ 4) ∧ (16384 : Nat) < 2 ^ 32 ∧ 16384 + addend 1 < 2 ^ 32
    ∧ addend 1 = 65536 / (2 * 10 ^ 1)
    ∧ manual_float (price_rounded 16384 1) 1 = 2
    ∧ ⌊((16384 : Nat) : ℚ) * 10 ^ 1 / 2 ^ 16 + 1 / 2⌋₊ = 3
    ∧ manual_float (price_rounded 16384 1) 1
        ≠ ⌊((16384 : Nat) : ℚ) * 10 ^ 1 / 2 ^ 16 + 1 / 2⌋₊ := by
  have ha : addend 1 = 3276 := addend_values.2.1
  have hD : manual_float (price_rounded 16384 1) 1 = 2 := by
    rw [manual_float_eq _ 1 (by decide)]
    simp [price_rounded, ha, UINT32_MOD]
  have hq : ((16384 : Nat) : ℚ) * 10 ^ 1 / 2 ^ 16 + 1 / 2
      = ((196608 : Nat) : ℚ) / ((65536 : Nat) : ℚ) := by norm_num
  have hE : ⌊((16384 : Nat) : ℚ) * 10 ^ 1 / 2 ^ 16 + 1 / 2⌋₊ = 3 := by
    rw [hq, floor_rat_div]
  refine ⟨⟨by decide, by decide⟩, by decide, ?_, ?_, hD, hE, ?_⟩
  · rw [ha]; decide
  · rw [ha]; decide
  · rw [hD, hE]; decide

/-- C5, amended: for every `N` in `1..4` and every 32-bit `raw` with
`raw + addend(N) < 2^32`, where `addend(N) = 65536 / (2 * 10^N)` by integer division, the
displayed number `floor((raw + addend(N)) * 10^N / 2^16)` equals the half-up rounding
`floor(raw * 10^N / 2^16 + 1/2)` when `(raw * 10^N + 32768) mod 65536 >= 32768 mod 10^N`,
and is one less than it otherwise. -/
theorem round_to_digits_half_up_or_one_less (raw N : Nat) (hN1 : 1 ≤ N) (hN4 : N ≤ 4)
    (_hraw : raw < 2 ^ 32) (hsum : raw + addend N < 2 ^ 32) :
    addend N = 65536 / (2 * 10 ^ N)
    ∧ manual_float (price_rounded raw N) N = (raw + addend N) * 10 ^ N / 2 ^ 16
    ∧ (32768 % 10 ^ N ≤ (raw * 10 ^ N + 32768) % 65536 →
        manual_float (price_rounded raw N) N = ⌊(raw : ℚ) * 10 ^ N / 2 ^ 16 + 1 / 2⌋₊)
    ∧ ((raw * 10 ^ N + 32768) % 65536 < 32768 % 10 ^ N →
        manual_float (price_rounded raw N) N + 1 = ⌊(raw : ℚ) * 10 ^ N / 2 ^ 16 + 1 / 2⌋₊) := by
  have hq : (raw : ℚ) * 10 ^ N / 2 ^ 16 + 1 / 2
      = ((raw * 10 ^ N + 32768 : Nat) : ℚ) / ((65536 : Nat) : ℚ) := by
    push_cast
    ring
  have hp : price_rounded raw N = raw + addend N :=
    Nat.mod_eq_of_lt (by simpa [UINT32_MOD] using hsum)
  rw [hq, floor_rat_div, hp, manual_float_eq _ N (by omega)]
  obtain ⟨-, h1, h2, h3, h4⟩ := addend_values
  have hcases : N = 1 ∨ N = 2 ∨ N = 3 ∨ N = 4 := by omega
  rcases hcases with rfl | rfl | rfl | rfl
  · rw [h1]; norm_num; omega
  · rw [h2]; norm_num; omega
  · rw [h3]; norm_num; omega
  · rw [h4]; norm_num; omega

theorem round_to_digits_half_up_or_one_less_witness :
    (1 ≤ 2 ∧ 2 ≤ 4) ∧ (14408557 : Nat) < 2 ^ 32 ∧ 14408557 + addend 2 < 2 ^ 32
    ∧ manual_float (price_rounded 14408557 2) 2 = (14408557 + addend 2) * 10 ^ 2 / 2 ^ 16 :=
  ⟨⟨by decide, by decide⟩, by decide, by rw [addend_values.2.2.1]; decide,
    (round_to_digits_half_up_or_one_less 14408557 2 (by decide) (by decide) (by decide)
      (by rw [addend_values.2.2.1]; decide)).2.1⟩

/-! ## C6: safe ceiling of the centered split -/

/-- C6: with `high = (x >> 4) & 0x0FF0` and `low = (x << 4) & 0x0FF0`, the products
`high * n` and `low * n` fit in 16 bits for every 16-bit `x` if and only if
`n <= 16 = floor(65536 / 4080)`; and for `x = 65401` every `n > 16` makes `high * n`
overflow 16 bits. -/
theorem centered_safe_ceiling :
    (∀ n : Nat, (∀ x : Nat, x < 2 ^ 16 →
        center_upper8 x * n < 2 ^ 16 ∧ center_lower8 x * n < 2 ^ 16) ↔ n ≤ 16)
    ∧ 65536 / 4080 = 16
    ∧ center_upper8 65401 = 4080
    ∧ (∀ n : Nat, 16 < n → 2 ^ 16 ≤ center_upper8 65401 * n) := by
  have h65401 : center_upper8 65401 = 4080 := by
    rw [center_upper8_eq 65401 (by decide)]
  refine ⟨fun n => ⟨fun h => ?_, fun hn x hx => ?_⟩, by decide, h65401, fun n hn => ?_⟩
  · have h1 := (h 65401 (by decide)).1
    rw [h65401] at h1
    omega
  · rw [center_upper8_eq x hx, center_lower8_eq]
    have hH : x / 256 * 16 ≤ 4080 := by omega
    have hL : x % 256 * 16 ≤ 4080 := by omega
    have hHn : x / 256 * 16 * n ≤ 4080 * 16 := Nat.mul_le_mul hH hn
    have hLn : x % 256 * 16 * n ≤ 4080 * 16 := Nat.mul_le_mul hL hn
    omega
  · rw [h65401]
    omega

theorem centered_safe_ceiling_witness :
    (16 : Nat) < 17 ∧ 2 ^ 16 ≤ center_upper8 65401 * 17 :=
  ⟨by decide, centered_safe_ceiling.2.2.2 17 (by decide)⟩

/-! ## C7: safe ceiling of the far-right split -/

/-- C7: with `high = x >> 8` and `low = x & 0xFF`, the products `high * n` and `low * n`
fit in 16 bits for every 16-bit `x` if and only if `n <= 257 = floor(65536 / 255)`; and
for `x = 65401` every `n > 257` makes `high * n` overflow 16 bits. -/
theorem right_aligned_safe_ceiling :
    (∀ n : Nat, (∀ x : Nat, x < 2 ^ 16 →
        right_upper8 x * n < 2 ^ 16 ∧ right_lower8 x * n < 2 ^ 16) ↔ n ≤ 257)
    ∧ 65536 / 255 = 257
    ∧ right_upper8 65401 = 255
    ∧ (∀ n : Nat, 257 < n → 2 ^ 16 ≤ right_upper8 65401 * n) := by
  have h65401 : right_upper8 65401 = 255 := by
    rw [right_upper8_eq 65401 (by decide)]
  refine ⟨fun n => ⟨fun h => ?_, fun hn x hx => ?_⟩, by decide, h65401, fun n hn => ?_⟩
  · have h1 := (h 65401 (by decide)).1
    rw [h65401] at h1
    omega
  · rw [right_upper8_eq x hx, right_lower8_eq]
    have hH : x / 256 ≤ 255 := by omega
    have hL : x % 256 ≤ 255 := by omega
    have hHn : x / 256 * n ≤ 255 * 257 := Nat.mul_le_mul hH hn
    have hLn : x % 256 * n ≤ 255 * 257 := Nat.mul_le_mul hL hn
    omega
  · rw [h65401]
    omega

theorem right_aligned_safe_ceiling_witness :
    (257 : Nat) < 258 ∧ 2 ^ 16 ≤ right_upper8 65401 * 258 :=
  ⟨by decide, right_aligned_safe_ceiling.2.2.2 258 (by decide)⟩

/-! ## C8: the centered split is at least as accurate as the far-right split -/

/-- C8: for every 16-bit `x`, every `d > 0` and every `n` with `n <= 16` and `n <= d`,
`right_aligned(x,n,d) <= centered(x,n,d) <= floor(x * n / d)`, both computed in 16-bit
arithmetic. -/
theorem right_aligned_le_centered_le_exact (x n d : Nat) (hx : x < 2 ^ 16) (hd : 0 < d)
    (hn : n ≤ 16) (hnd : n ≤ d) :
    right_aligned x n d ≤ centered x n d ∧ centered x n d ≤ x * n / d :=
  ⟨right_aligned_le_centered x n d hx hd hn hnd, centered_le_exact x n d hx hd hn hnd⟩

theorem right_aligned_le_centered_le_exact_witness :
    (65401 : Nat) < 2 ^ 16 ∧ 0 < 127 ∧ 16 ≤ 16 ∧ 16 ≤ 127
    ∧ right_aligned 65401 16 127 ≤ centered 65401 16 127
    ∧ centered 65401 16 127 ≤ 65401 * 16 / 127 :=
  ⟨by decide, by decide, by decide, by decide,
    right_aligned_le_centered_le_exact 65401 16 127 (by decide) (by decide) (by decide)
      (by decide)⟩

/-! ## C9: how dividing first compares with the two splits -/

/-- C9, as stated, fails: dividing first gives 32 for `x = 256, n = 16, d = 127` where the
far-right split gives 0, it gives 16 for `x = 300, n = 16, d = 300` where the centered
split gives 2, and for `x = 65401, n = 16, d = 127` the far-right split (8207) is below
dividing first (8224). -/
theorem divide_first_not_lowest :
    ((256 : Nat) < 2 ^ 16 ∧ 0 < 127 ∧ 16 ≤ 16 ∧ 16 ≤ 127
      ∧ divide_first 256 16 127 = 32 ∧ right_aligned 256 16 127 = 0
      ∧ ¬ divide_first 256 16 127 ≤ right_aligned 256 16 127)
    ∧ ((300 : Nat) < 2 ^ 16 ∧ 0 < 300 ∧ 16 ≤ 16 ∧ 16 ≤ 300
      ∧ divide_first 300 16 300 = 16 ∧ centered 300 16 300 = 2
      ∧ ¬ divide_first 300 16 300 ≤ centered 300 16 300)
    ∧ (divide_first 65401 16 127 = 8224 ∧ right_aligned 65401 16 127 = 8207
      ∧ ¬ divide_first 65401 16 127 < right_aligned 65401 16 127) := by
  have a1 : divide_first 256 16 127 = 32 := by decide
  have a2 : right_aligned 256 16 127 = 0 := by decide
  have b1 : divide_first 300 16 300 = 16 := by decide
  have b2 : centered 300 16 300 = 2 := by decide
  have c1 : divide_first 65401 16 127 = 8224 := by decide
  have c2 : right_aligned 65401 16 127 = 8207 := by decide
  refine ⟨⟨by decide, by decide, by decide, by decide, a1, a2, ?_⟩,
    ⟨by decide, by decide, by decide, by decide, b1, b2, ?_⟩, c1, c2, ?_⟩
  · rw [a1, a2]; decide
  · rw [b1, b2]; decide
  · rw [c1, c2]; decide

/-- C9, amended: for every 16-bit `x`, every `d > 0` and every `n` with `n <= 16` and
`n <= d`, the divide-first result, the far-right split result and the centered split
result are each at most `floor(x * n / d)`, and the far-right result is at most the
centered one; for `x = 65401, n = 16, d = 127` the far-right split is the lowest (8207),
dividing first lies strictly between it and the centered split (8224), and the centered
split equals `floor(65401 * 16 / 127) = 8239`. -/
theorem three_strategies_below_exact (x n d : Nat) (hx : x < 2 ^ 16) (hd : 0 < d)
    (hn : n ≤ 16) (hnd : n ≤ d) :
    (divide_first x n d = x / d * n
      ∧ divide_first x n d ≤ x * n / d
      ∧ right_aligned x n d ≤ centered x n d
      ∧ centered x n d ≤ x * n / d)
    ∧ (right_aligned 65401 16 127 = 8207 ∧ divide_first 65401 16 127 = 8224
      ∧ centered 65401 16 127 = 8239 ∧ 65401 * 16 / 127 = 8239) := by
  have hle : x / d * n ≤ x :=
    Nat.le_trans (Nat.mul_le_mul_left _ hnd) (Nat.div_mul_le_self x d)
  have hdf : divide_first x n d = x / d * n :=
    Nat.mod_eq_of_lt (by simp only [UINT16_MOD]; omega)
  refine ⟨⟨hdf, ?_, right_aligned_le_centered x n d hx hd hn hnd,
    centered_le_exact x n d hx hd hn hnd⟩, by decide, by decide, by decide, by decide⟩
  rw [hdf]
  exact div_mul_le_mul_div x n d

theorem three_strategies_below_exact_witness :
    (65401 : Nat) < 2 ^ 16 ∧ 0 < 127 ∧ 16 ≤ 16 ∧ 16 ≤ 127
    ∧ divide_first 65401 16 127 ≤ 65401 * 16 / 127 :=
  ⟨by decide, by decide, by decide, by decide,
    (three_strategies_below_exact 65401 16 127 (by decide) (by decide) (by decide)
      (by decide)).1.2.1⟩

/-! ## C10: dividing first never overflows -/

/-- C10: for every 16-bit `x`, `n`, `d` with `d > 0` and `n < d`, whatever the magnitude
of `n`, the product `(x / d) * n` is at most `x`, so it fits in 16 bits and the stored
result is the product itself, not a wrapped value. -/
theorem divide_first_never_overflows (x n d : Nat) (hx : x < 2 ^ 16) (_hn : n < 2 ^ 16)
    (_hd16 : d < 2 ^ 16) (_hd : 0 < d) (hnd : n < d) :
    x / d * n ≤ x ∧ x / d * n < 2 ^ 16 ∧ divide_first x n d = x / d * n := by
  have hle : x / d * n ≤ x :=
    Nat.le_trans (Nat.mul_le_mul_left _ (Nat.le_of_lt hnd)) (Nat.div_mul_le_self x d)
  exact ⟨hle, by omega, Nat.mod_eq_of_lt (by simp only [UINT16_MOD]; omega)⟩

theorem divide_first_never_overflows_witness :
    (65401 : Nat) < 2 ^ 16 ∧ (65000 : Nat) < 2 ^ 16 ∧ (65001 : Nat) < 2 ^ 16 ∧ 0 < 65001
    ∧ 65000 < 65001 ∧ divide_first 65401 65000 65001 = 65401 / 65001 * 65000 :=
  ⟨by decide, by decide, by decide, by decide, by decide,
    (divide_first_never_overflows 65401 65000 65001 (by decide) (by decide) (by decide)
      (by decide) (by decide)).2.2⟩

/-! ## C11: multiplying before dividing keeps more than dividing first -/

/-- C11: for all naturals `v`, `k` and `d > 0` with `v * k` not overflowing the 32-bit
word, `(v / d) * k <= (v * k) / d`, where `(v * k) / d` is what the multiply-first code
computes (the widened true answer, and `price *= k; price /= d`); the divide-first result
is therefore never above the multiply-first one, and it is strictly below it for
`v = 65401, k = 16, d = 127` (8224 against 8239). -/
theorem multiply_first_keeps_more (v k d : Nat) (_hd : 0 < d) (hvk : v * k < 2 ^ 32) :
    v / d * k ≤ v * k / d
    ∧ true_answer v k d = v * k / d
    ∧ price_div (price_mul v k) d = v * k / d
    ∧ divide_first v k d ≤ true_answer v k d
    ∧ (divide_first 65401 16 127 = 8224 ∧ true_answer 65401 16 127 = 8239
      ∧ divide_first 65401 16 127 < true_answer 65401 16 127) := by
  have hmod : v * k % UINT32_MOD = v * k :=
    Nat.mod_eq_of_lt (by simpa [UINT32_MOD] using hvk)
  have hta : true_answer v k d = v * k / d := by
    unfold true_answer
    rw [hmod]
  have hpr : price_div (price_mul v k) d = v * k / d := by
    unfold price_div price_mul
    rw [hmod]
  refine ⟨div_mul_le_mul_div v k d, hta, hpr, ?_, by decide, by decide, by decide⟩
  rw [hta]
  exact Nat.le_trans (Nat.mod_le _ _) (div_mul_le_mul_div v k d)

theorem multiply_first_keeps_more_witness :
    0 < 7 ∧ 33619968 * 3 < 2 ^ 32 ∧ 33619968 / 7 * 3 ≤ 33619968 * 3 / 7
    ∧ price_div (price_mul 33619968 3) 7 = 33619968 * 3 / 7 :=
  ⟨by decide, by decide,
    (multiply_first_keeps_more 33619968 3 7 (by decide) (by decide)).1,
    (multiply_first_keeps_more 33619968 3 7 (by decide) (by decide)).2.2.1⟩

/-! ## C12: the printed true answers -/

/-- C12, as stated, fails: the widened reference `(uint32_t)x * n / d` is not 8238 for
`x = 65401, n = 16, d = 127`, it is not 50974 for `n = 99`, and the centered split does
not yield 8238. -/
theorem true_answer_not_as_stated :
    true_answer 65401 16 127 ≠ 8238 ∧ 65401 * 16 / 127 ≠ 8238
    ∧ true_answer 65401 99 127 ≠ 50974 ∧ 65401 * 99 / 127 ≠ 50974
    ∧ centered 65401 16 127 ≠ 8238 := by
  decide

/-- C12, amended: the widened reference `(uint32_t)x * n / d` evaluates to
`floor(65401 * 16 / 127) = 8239` for `x = 65401, n = 16, d = 127` and to
`floor(65401 * 99 / 127) = 50981` for `x = 65401, n = 99, d = 127`, and the centered split
yields exactly 8239 for the first case. -/
theorem true_answer_values :
    true_answer 65401 16 127 = 8239 ∧ 65401 * 16 / 127 = 8239
    ∧ true_answer 65401 99 127 = 50981 ∧ 65401 * 99 / 127 = 50981
    ∧ centered 65401 16 127 = 8239 := by
  decide

/-! ## C13: the centered split is exact on the first example -/

/-- C13: for `x = 65401, n = 16, d = 127` the centered split, computed in 16-bit
arithmetic, equals the widened reference `floor(65401 * 16 / 127)` exactly, while the
divide-first and far-right results are both strictly smaller than it. -/
theorem centered_perfect_on_example :
    centered 65401 16 127 = true_answer 65401 16 127
    ∧ true_answer 65401 16 127 = 65401 * 16 / 127
    ∧ divide_first 65401 16 127 < true_answer 65401 16 127
    ∧ right_aligned 65401 16 127 < true_answer 65401 16 127 := by
  decide

/-! ## C14: the overflow example -/

/-- C14: for `x = 65401, n = 99, d = 127` the centered split's product
`((x >> 4) & 0x0FF0) * 99` exceeds `2^16 - 1` and its 16-bit store wraps; the centered
result is further from `floor(65401 * 99 / 127)` than the far-right result is; and in the
far-right split neither product nor the recombination exceeds `2^16 - 1`. -/
theorem overflow_example :
    (2 ^ 16 - 1 < center_upper8 65401 * 99
      ∧ center_upper8 65401 * 99 % UINT16_MOD ≠ center_upper8 65401 * 99)
    ∧ (centered 65401 99 127 = 1373 ∧ right_aligned 65401 99 127 = 50782
      ∧ true_answer 65401 99 127 = 65401 * 99 / 127
      ∧ true_answer 65401 99 127 - right_aligned 65401 99 127
          < true_answer 65401 99 127 - centered 65401 99 127)
    ∧ (right_upper8 65401 * 99 ≤ 2 ^ 16 - 1 ∧ right_lower8 65401 * 99 ≤ 2 ^ 16 - 1
      ∧ ((right_upper8 65401 * 99 / 127) <<< 8) + right_lower8 65401 * 99 / 127
          ≤ 2 ^ 16 - 1) := by
  decide

/-! ## C15: the addend table -/

/-- C15: for `F = 16`, `FRACTION_DIVISOR/2 = 32768`, `/20 = 3276`, `/200 = 327`,
`/2000 = 32`, `/20000 = 3` and `/200000 = 0` under integer division. -/
theorem addend_table :
    FRACTION_DIVISOR = 65536
    ∧ addend 0 = 32768 ∧ addend 1 = 3276 ∧ addend 2 = 327 ∧ addend 3 = 32 ∧ addend 4 = 3
    ∧ addend 5 = 0
    ∧ (FRACTION_DIVISOR / 2 = 32768 ∧ FRACTION_DIVISOR / 20 = 3276
      ∧ FRACTION_DIVISOR / 200 = 327 ∧ FRACTION_DIVISOR / 2000 = 32
      ∧ FRACTION_DIVISOR / 20000 = 3 ∧ FRACTION_DIVISOR / 200000 = 0) := by
  simp [addend, fraction_divisor_eq, UINT32_MOD]

/-! ## C16: the addends shrink to zero and rounding becomes a no-op -/

/-- An addend is the truncated quotient itself; the `fixed_point_t` store changes nothing. -/
theorem addend_eq (N : Nat) : addend N = 65536 / (2 * 10 ^ N) := by
  unfold addend
  rw [fraction_divisor_eq]
  exact Nat.mod_eq_of_lt
    (Nat.lt_of_le_of_lt (Nat.div_le_self _ _) (by simp only [UINT32_MOD]; omega))

/-- Past the resolution of 16 fraction bits the addend is zero. -/
theorem addend_eq_zero (N : Nat) (hN : 65536 < 10 ^ N) : addend N = 0 := by
  rw [addend_eq]
  exact Nat.div_eq_of_lt (by omega)

/-- C16: `addend(N) = 65536 / (2 * 10^N)` is non-increasing in `N`; for every `N` with
`10^N > 65536` it is 0 and adding it leaves every 32-bit price unchanged; in particular
`price + addend5 = price`, and the 5-digit rounded display (whole number and fractional
field) equals the 5-digit unrounded display for every raw value. -/
theorem addend_antitone_and_vanishes :
    (∀ N M : Nat, N ≤ M → addend M ≤ addend N)
    ∧ (∀ N : Nat, addend N = 65536 / (2 * 10 ^ N))
    ∧ (∀ N : Nat, 65536 < 10 ^ N → addend N = 0)
    ∧ (∀ N raw : Nat, 65536 < 10 ^ N → raw < 2 ^ 32 → price_rounded raw N = raw)
    ∧ (∀ raw : Nat, raw < 2 ^ 32 →
        price_rounded raw 5 = raw
        ∧ FIXED_PT_2_NUM (price_rounded raw 5) = FIXED_PT_2_NUM raw
        ∧ fraction_digits (price_rounded raw 5) 5 = fraction_digits raw 5
        ∧ fraction_field (price_rounded raw 5) 5 = fraction_field raw 5
        ∧ manual_float (price_rounded raw 5) 5 = manual_float raw 5) := by
  have hnoop : ∀ N raw : Nat, 65536 < 10 ^ N → raw < 2 ^ 32 → price_rounded raw N = raw := by
    intro N raw hN hraw
    unfold price_rounded
    rw [addend_eq_zero N hN, Nat.add_zero]
    exact Nat.mod_eq_of_lt (by simpa [UINT32_MOD] using hraw)
  refine ⟨fun N M hNM => ?_, addend_eq, addend_eq_zero, hnoop, fun raw hraw => ?_⟩
  · rw [addend_eq, addend_eq]
    exact Nat.div_le_div_left
      (Nat.mul_le_mul_left 2 (Nat.pow_le_pow_right (by decide) hNM))
      (Nat.mul_pos (by decide) (pow_pos (by decide) N))
  · have h5 : price_rounded raw 5 = raw := hnoop 5 raw (by norm_num) hraw
    rw [h5]
    exact ⟨rfl, rfl, rfl, rfl, rfl⟩

theorem addend_antitone_and_vanishes_witness :
    (4 ≤ 5 ∧ addend 5 ≤ addend 4)
    ∧ ((14408557 : Nat) < 2 ^ 32 ∧ price_rounded 14408557 5 = 14408557) :=
  ⟨⟨by decide, addend_antitone_and_vanishes.1 4 5 (by decide)⟩,
    by decide, (addend_antitone_and_vanishes.2.2.2.2 14408557 (by decide)).1⟩

/-! ## C17: a sum of whole numbers formats with a zero fraction -/

/-- C17: for all `n`, `m` with `n + m <= 65535` and every `N` in `0..6`, the value
`(n << 16) + (m << 16)` equals `(n + m) << 16`, has integer part `n + m` and
fractional-digits value 0, printed as `N` zero digits. -/
theorem whole_sum_has_zero_fraction (n m N : Nat) (hsum : n + m ≤ 65535) (hN : N ≤ 6) :
    price_add (NUM_2_FIXED_PT n) m = NUM_2_FIXED_PT (n + m)
    ∧ FIXED_PT_2_NUM (price_add (NUM_2_FIXED_PT n) m) = n + m
    ∧ fraction_digits (price_add (NUM_2_FIXED_PT n) m) N = 0
    ∧ fraction_field (price_add (NUM_2_FIXED_PT n) m) N = List.replicate N '0' := by
  have hval : price_add (NUM_2_FIXED_PT n) m = (n + m) * 65536 := by
    simp only [price_add, NUM_2_FIXED_PT, shiftLeft_fraction_bits, UINT32_MOD]
    omega
  have hconv : NUM_2_FIXED_PT (n + m) = (n + m) * 65536 := by
    simp only [NUM_2_FIXED_PT, shiftLeft_fraction_bits, UINT32_MOD]
    omega
  have hfrac : fraction_digits (price_add (NUM_2_FIXED_PT n) m) N = 0 := by
    rw [fraction_digits_eq _ N hN, hval, Nat.mul_mod_left]
    simp
  refine ⟨by rw [hval, hconv], ?_, hfrac, ?_⟩
  · rw [hval]
    unfold FIXED_PT_2_NUM
    rw [shiftRight_fraction_bits]
    omega
  · unfold fraction_field
    rw [hfrac]
    interval_cases N <;> rfl

theorem whole_sum_has_zero_fraction_witness :
    503 + 10 ≤ 65535 ∧ 4 ≤ 6
    ∧ FIXED_PT_2_NUM (price_add (NUM_2_FIXED_PT 503) 10) = 503 + 10
    ∧ fraction_field (price_add (NUM_2_FIXED_PT 503) 10) 4 = List.replicate 4 '0' :=
  ⟨by decide, by decide,
    (whole_sum_has_zero_fraction 503 10 4 (by decide) (by decide)).2.1,
    (whole_sum_has_zero_fraction 503 10 4 (by decide) (by decide)).2.2.2⟩

/-! ## C18: the representation invariant -/

/-- C18: for every 32-bit `raw`, `raw = (raw >> 16) * 65536 + (raw & FRACTION_MASK)` with
`0 <= (raw & FRACTION_MASK) < 65536`, so the represented quantity `raw / 2^16` is the
integer part plus the fractional part over 65536. -/
theorem representation_invariant (raw : Nat) (_hraw : raw < 2 ^ 32) :
    raw = (raw >>> FRACTION_BITS) * 65536 + (raw &&& FRACTION_MASK)
    ∧ raw &&& FRACTION_MASK < 65536
    ∧ (raw : ℚ) / 2 ^ 16
        = ((raw >>> FRACTION_BITS : Nat) : ℚ) + ((raw &&& FRACTION_MASK : Nat) : ℚ) / 65536 := by
  have hsplit : raw = (raw >>> FRACTION_BITS) * 65536 + (raw &&& FRACTION_MASK) := by
    rw [shiftRight_fraction_bits, and_fraction_mask]
    omega
  refine ⟨hsplit, ?_, ?_⟩
  · rw [and_fraction_mask]
    omega
  · have hq : (raw : ℚ)
        = ((raw >>> FRACTION_BITS : Nat) : ℚ) * 65536 + ((raw &&& FRACTION_MASK : Nat) : ℚ) := by
      exact_mod_cast hsplit
    generalize ((raw >>> FRACTION_BITS : Nat) : ℚ) = a at hq ⊢
    generalize ((raw &&& FRACTION_MASK : Nat) : ℚ) = b at hq ⊢
    rw [hq]
    ring

theorem representation_invariant_witness :
    (14408557 : Nat) < 2 ^ 32
    ∧ 14408557 = (14408557 >>> FRACTION_BITS) * 65536 + (14408557 &&& FRACTION_MASK) :=
  ⟨by decide, (representation_invariant 14408557 (by decide)).1⟩

/-! ## C19: the whole-number range and its wrap -/

/-- C19: `WHOLE_NUM_BITS = 32 - 16 = 16` and `MAX_WHOLE_NUM = 2^16 - 1 = 65535`; every
32-bit raw value has integer part at most 65535; and for every 32-bit `n` the 32-bit
shift `n << 16` has integer part `n mod 2^16`, so a whole number above 65535 wraps. -/
theorem whole_number_range_and_wrap :
    WHOLE_NUM_BITS = 16 ∧ WHOLE_NUM_BITS = 32 - 16
    ∧ MAX_WHOLE_NUM = 65535 ∧ MAX_WHOLE_NUM = 2 ^ 16 - 1
    ∧ (∀ raw : Nat, raw < 2 ^ 32 → FIXED_PT_2_NUM raw ≤ MAX_WHOLE_NUM)
    ∧ (∀ n : Nat, n < 2 ^ 32 → FIXED_PT_2_NUM (NUM_2_FIXED_PT n) = n % 2 ^ 16)
    ∧ FIXED_PT_2_NUM (NUM_2_FIXED_PT 65536) = 0 := by
  have hmax : MAX_WHOLE_NUM = 65535 := by decide
  have hwrap : ∀ n : Nat, FIXED_PT_2_NUM (NUM_2_FIXED_PT n) = n % 2 ^ 16 := by
    intro n
    simp only [FIXED_PT_2_NUM, NUM_2_FIXED_PT, shiftRight_fraction_bits,
      shiftLeft_fraction_bits, UINT32_MOD]
    omega
  refine ⟨by decide, by decide, hmax, by decide, fun raw hraw => ?_, fun n _ => hwrap n, ?_⟩
  · rw [hmax]
    unfold FIXED_PT_2_NUM
    rw [shiftRight_fraction_bits]
    omega
  · rw [hwrap]
    norm_num

theorem whole_number_range_and_wrap_witness :
    (65537 : Nat) < 2 ^ 32 ∧ FIXED_PT_2_NUM (NUM_2_FIXED_PT 65537) = 65537 % 2 ^ 16 :=
  ⟨by decide, whole_number_range_and_wrap.2.2.2.2.2.1 65537 (by decide)⟩

/-! ## C20: the digits of successive displays are prefixes of one expansion -/

/-- C20: for every 32-bit `raw` and every `N` in `0..5`, the `(N+1)`-digit fractional
value divided by 10 equals the `N`-digit fractional value:
`((raw & 65535) * 10^(N+1) / 65536) / 10 = (raw & 65535) * 10^N / 65536`. -/
theorem successive_digits_agree (raw N : Nat) (_hraw : raw < 2 ^ 32) (hN : N ≤ 5) :
    fraction_digits raw (N + 1) / 10 = fraction_digits raw N
    ∧ fraction_digits raw (N + 1) = (raw &&& 65535) * 10 ^ (N + 1) / 65536
    ∧ fraction_digits raw N = (raw &&& 65535) * 10 ^ N / 65536 := by
  have hmask : raw &&& 65535 = raw % 65536 := Nat.and_pow_two_sub_one_eq_mod raw 16
  have h1 := fraction_digits_eq raw (N + 1) (by omega)
  have h0 := fraction_digits_eq raw N (by omega)
  refine ⟨?_, by rw [h1, hmask], by rw [h0, hmask]⟩
  rw [h1, h0, Nat.div_div_eq_div_mul, Nat.pow_succ,
    show raw % 65536 * (10 ^ N * 10) = raw % 65536 * 10 ^ N * 10 by ring,
    Nat.mul_div_mul_right _ _ (by decide : 0 < 10)]

theorem successive_digits_agree_witness :
    (14408557 : Nat) < 2 ^ 32 ∧ 4 ≤ 5
    ∧ fraction_digits 14408557 (4 + 1) / 10 = fraction_digits 14408557 4 :=
  ⟨by decide, by decide, (successive_digits_agree 14408557 4 (by decide) (by decide)).1⟩

/-! ## C21: rounding twice moves the display by at most one unit -/

/-- C21: for every `N` in `0..5` and every 32-bit `raw` with `raw + 2 * addend(N) < 2^32`,
the displayed number `D(r) = floor(r * 10^N / 2^16)` of the twice-rounded value exceeds
that of the once-rounded value by 0 or 1. -/
theorem repeated_rounding_drift (raw N : Nat) (hN : N ≤ 5) (_hraw : raw < 2 ^ 32)
    (hsum : raw + 2 * addend N < 2 ^ 32) :
    price_rounded (price_rounded raw N) N = raw + 2 * addend N
    ∧ manual_float (price_rounded raw N) N = (raw + addend N) * 10 ^ N / 2 ^ 16
    ∧ manual_float (price_rounded (price_rounded raw N) N) N
        = (raw + 2 * addend N) * 10 ^ N / 2 ^ 16
    ∧ (manual_float (price_rounded (price_rounded raw N) N) N
          = manual_float (price_rounded raw N) N
        ∨ manual_float (price_rounded (price_rounded raw N) N) N
          = manual_float (price_rounded raw N) N + 1) := by
  have h1 : price_rounded raw N = raw + addend N :=
    Nat.mod_eq_of_lt (by simp only [UINT32_MOD]; omega)
  have h2 : price_rounded (price_rounded raw N) N = raw + 2 * addend N := by
    rw [h1]
    unfold price_rounded
    rw [Nat.mod_eq_of_lt (by simp only [UINT32_MOD]; omega)]
    omega
  rw [h2, h1, manual_float_eq _ N (by omega), manual_float_eq _ N (by omega)]
  obtain ⟨a0, a1, a2, a3, a4⟩ := addend_values
  have a5 : addend 5 = 0 := addend_eq_zero 5 (by norm_num)
  have hcases : N = 0 ∨ N = 1 ∨ N = 2 ∨ N = 3 ∨ N = 4 ∨ N = 5 := by omega
  rcases hcases with rfl | rfl | rfl | rfl | rfl | rfl
  · rw [a0]; norm_num; omega
  · rw [a1]; norm_num; omega
  · rw [a2]; norm_num; omega
  · rw [a3]; norm_num; omega
  · rw [a4]; norm_num; omega
  · rw [a5]; norm_num

theorem repeated_rounding_drift_witness :
    3 ≤ 5 ∧ (14408557 : Nat) < 2 ^ 32 ∧ 14408557 + 2 * addend 3 < 2 ^ 32
    ∧ (manual_float (price_rounded (price_rounded 14408557 3) 3) 3
          = manual_float (price_rounded 14408557 3) 3
        ∨ manual_float (price_rounded (price_rounded 14408557 3) 3) 3
          = manual_float (price_rounded 14408557 3) 3 + 1) :=
  ⟨by decide, by decide, by rw [addend_values.2.2.2.1]; decide,
    (repeated_rounding_drift 14408557 3 (by decide) (by decide)
      (by rw [addend_values.2.2.2.1]; decide)).2.2.2⟩

/-! ## C22: scenario 1, the price of the demonstration -/

/-- C22, as stated, fails: the price built from 503 and 10, times 3, over 7, in 32-bit
arithmetic does not have integer part 218 nor 4-digit fractional value 5714. -/
theorem scenario_one_not_as_stated :
    main_price = ((503 <<< 16) + (10 <<< 16)) * 3 / 7
    ∧ main_price >>> FRACTION_BITS ≠ 218
    ∧ fraction_digits main_price 4 ≠ 5714 := by
  decide

/-- C22, amended: with `F = 16`, `price = ((503 << 16) + (10 << 16)) * 3 / 7` in 32-bit
arithmetic has integer part 219 and 4-digit fractional value 8571, printed `8571`: the
fixed-point image of `(503 + 10) * 3 / 7 = 219.857142857...`, whose truncation to 4 digits
is 219.8571. -/
theorem scenario_one_values :
    main_price = ((503 <<< 16) + (10 <<< 16)) * 3 / 7
    ∧ main_price >>> FRACTION_BITS = 219
    ∧ fraction_digits main_price 4 = 8571
    ∧ fraction_field main_price 4 = ['8', '5', '7', '1']
    ∧ manual_float main_price 4 = ⌊(((503 + 10) * 3 : Nat) : ℚ) / ((7 : Nat) : ℚ) * 10 ^ 4⌋₊ := by
  have hq : (((503 + 10) * 3 : Nat) : ℚ) / ((7 : Nat) : ℚ) * 10 ^ 4
      = (((503 + 10) * 3 * 10 ^ 4 : Nat) : ℚ) / ((7 : Nat) : ℚ) := by
    push_cast
    ring
  refine ⟨by decide, by decide, by decide, by decide, ?_⟩
  rw [hq, floor_rat_div]
  decide

/-! ## C23: how far the truncated display is from the exact value -/

/-- The truncation of an exact quotient to `N` decimal digits. -/
theorem floor_scaled (a b N : Nat) : ⌊(a : ℚ) / (b : ℚ) * 10 ^ N⌋₊ = a * 10 ^ N / b := by
  have hq : (a : ℚ) / (b : ℚ) * 10 ^ N = ((a * 10 ^ N : Nat) : ℚ) / (b : ℚ) := by
    push_cast
    ring
  rw [hq, floor_rat_div]

/-- The display of the fixed-point image of an exact value never exceeds the truncation of
the exact value, and is less than `1 + 10^N / 2^16` below it. -/
theorem display_near_exact (v : ℚ) (hv : 0 ≤ v) (N : Nat) (hN : N ≤ 6) :
    manual_float ⌊v * 2 ^ 16⌋₊ N ≤ ⌊v * 10 ^ N⌋₊
    ∧ ⌊v * 10 ^ N⌋₊ * 65536 < (manual_float ⌊v * 2 ^ 16⌋₊ N + 1) * 65536 + 10 ^ N := by
  have ht : (0 : ℚ) < 10 ^ N := by positivity
  have hlo : ((⌊v * 2 ^ 16⌋₊ : Nat) : ℚ) ≤ v * 2 ^ 16 := Nat.floor_le (by positivity)
  have hhi : v * 2 ^ 16 < ((⌊v * 2 ^ 16⌋₊ : Nat) : ℚ) + 1 := Nat.lt_floor_add_one _
  have hT : ((⌊v * 10 ^ N⌋₊ : Nat) : ℚ) ≤ v * 10 ^ N := Nat.floor_le (by positivity)
  rw [manual_float_eq _ N hN]
  generalize ⌊v * 2 ^ 16⌋₊ = raw at hlo hhi ⊢
  have hD1 : raw * 10 ^ N / 65536 * 65536 ≤ raw * 10 ^ N := Nat.div_mul_le_self _ _
  have hD2 : raw * 10 ^ N < (raw * 10 ^ N / 65536 + 1) * 65536 := by omega
  have hD1q : ((raw * 10 ^ N / 65536 : Nat) : ℚ) * 65536 ≤ (raw : ℚ) * 10 ^ N := by
    exact_mod_cast hD1
  have hD2q : (raw : ℚ) * 10 ^ N < (((raw * 10 ^ N / 65536 : Nat) : ℚ) + 1) * 65536 := by
    exact_mod_cast hD2
  have hlo' : (raw : ℚ) * 10 ^ N ≤ v * 2 ^ 16 * 10 ^ N :=
    mul_le_mul_of_nonneg_right hlo (le_of_lt ht)
  have hhi' : v * 2 ^ 16 * 10 ^ N < ((raw : ℚ) + 1) * 10 ^ N :=
    mul_lt_mul_of_pos_right hhi ht
  constructor
  · apply Nat.le_floor
    have h : ((raw * 10 ^ N / 65536 : Nat) : ℚ) * 65536 ≤ v * 10 ^ N * 65536 := by
      calc ((raw * 10 ^ N / 65536 : Nat) : ℚ) * 65536 ≤ (raw : ℚ) * 10 ^ N := hD1q
        _ ≤ v * 2 ^ 16 * 10 ^ N := hlo'
        _ = v * 10 ^ N * 65536 := by ring
    exact le_of_mul_le_mul_right h (by norm_num)
  · have h : ((⌊v * 10 ^ N⌋₊ : Nat) : ℚ) * 65536
        < (((raw * 10 ^ N / 65536 : Nat) : ℚ) + 1) * 65536 + 10 ^ N := by
      calc ((⌊v * 10 ^ N⌋₊ : Nat) : ℚ) * 65536 ≤ v * 10 ^ N * 65536 :=
            mul_le_mul_of_nonneg_right hT (by norm_num)
        _ = v * 2 ^ 16 * 10 ^ N := by ring
        _ < ((raw : ℚ) + 1) * 10 ^ N := hhi'
        _ = (raw : ℚ) * 10 ^ N + 10 ^ N := by ring
        _ < (((raw * 10 ^ N / 65536 : Nat) : ℚ) + 1) * 65536 + 10 ^ N := by linarith
    exact_mod_cast h

/-- C23, as stated, fails at the exact value `v = 1/10` and `N = 1`: its fixed-point image
is `raw = 6553`, displayed with one digit as `0` (that is 0.0), while the exact value
truncated to one digit is `1` (that is 0.1). -/
theorem truncated_display_not_exact :
    (0 : ℚ) ≤ 1 / 10 ∧ (1 / 10 : ℚ) < 65536 ∧ 1 ≤ 4
    ∧ ⌊(1 / 10 : ℚ) * 2 ^ 16⌋₊ = 6553
    ∧ manual_float ⌊(1 / 10 : ℚ) * 2 ^ 16⌋₊ 1 = 0
    ∧ ⌊(1 / 10 : ℚ) * 10 ^ 1⌋₊ = 1
    ∧ manual_float ⌊(1 / 10 : ℚ) * 2 ^ 16⌋₊ 1 ≠ ⌊(1 / 10 : ℚ) * 10 ^ 1⌋₊ := by
  have hraw : ⌊(1 / 10 : ℚ) * 2 ^ 16⌋₊ = 6553 := by
    have hq : (1 / 10 : ℚ) * 2 ^ 16 = ((65536 : Nat) : ℚ) / ((10 : Nat) : ℚ) := by norm_num
    rw [hq, floor_rat_div]
  have hT : ⌊(1 / 10 : ℚ) * 10 ^ 1⌋₊ = 1 := by
    have hq : (1 / 10 : ℚ) * 10 ^ 1 = ((1 : Nat) : ℚ) := by norm_num
    rw [hq, Nat.floor_natCast]
  have hD : manual_float 6553 1 = 0 := by decide
  refine ⟨by norm_num, by norm_num, by decide, hraw, ?_, hT, ?_⟩
  · rw [hraw, hD]
  · rw [hraw, hD, hT]
    decide

/-- C23, amended: for every exact non-negative rational `v` with `v < 65536`,
`raw = floor(v * 2^16)`, and every `N` in `0..4`, the `N`-digit truncated display
`floor(raw * 10^N / 2^16)` is the `N`-digit truncation `floor(v * 10^N)` of the exact value
or one less than it, and equals it when `v` is exactly representable (`v * 2^16 = raw`);
`N = 5` is the first digit count whose power of ten exceeds `2^16`, and there the display
can be two below the truncation (`v = 3/100000`: display 1, truncation 3). -/
theorem truncated_display_within_one (v : ℚ) (hv : 0 ≤ v) (hv' : v < 65536) (N : Nat)
    (hN : N ≤ 4) :
    ⌊v * 2 ^ 16⌋₊ < 2 ^ 32
    ∧ manual_float ⌊v * 2 ^ 16⌋₊ N = ⌊v * 2 ^ 16⌋₊ * 10 ^ N / 2 ^ 16
    ∧ (manual_float ⌊v * 2 ^ 16⌋₊ N = ⌊v * 10 ^ N⌋₊
        ∨ manual_float ⌊v * 2 ^ 16⌋₊ N + 1 = ⌊v * 10 ^ N⌋₊)
    ∧ (v * 2 ^ 16 = ((⌊v * 2 ^ 16⌋₊ : Nat) : ℚ) →
        manual_float ⌊v * 2 ^ 16⌋₊ N = ⌊v * 10 ^ N⌋₊)
    ∧ (10 ^ 4 ≤ 2 ^ 16 ∧ 2 ^ 16 < 10 ^ 5)
    ∧ (⌊(3 / 100000 : ℚ) * 2 ^ 16⌋₊ = 1 ∧ manual_float 1 5 = 1
        ∧ ⌊(3 / 100000 : ℚ) * 10 ^ 5⌋₊ = 3) := by
  obtain ⟨hle, hlt⟩ := display_near_exact v hv N (by omega)
  have hpow : 10 ^ N ≤ 10 ^ 4 := Nat.pow_le_pow_right (by decide) hN
  have hbound : ⌊v * 2 ^ 16⌋₊ < 2 ^ 32 := by
    rw [Nat.floor_lt (by positivity)]
    calc v * 2 ^ 16 < 65536 * 2 ^ 16 := mul_lt_mul_of_pos_right hv' (by norm_num)
      _ = ((2 ^ 32 : Nat) : ℚ) := by norm_num
  refine ⟨hbound, ?_, ?_, ?_, by norm_num, ?_, by decide, ?_⟩
  · rw [manual_float_eq _ N (by omega)]
    norm_num
  · norm_num at hpow
    omega
  · intro hrep
    rw [manual_float_eq _ N (by omega)]
    have hq : v * 10 ^ N
        = ((⌊v * 2 ^ 16⌋₊ * 10 ^ N : Nat) : ℚ) / ((65536 : Nat) : ℚ) := by
      push_cast
      rw [← hrep]
      ring
    rw [hq, floor_rat_div]
  · have hq : (3 / 100000 : ℚ) * 2 ^ 16 = ((196608 : Nat) : ℚ) / ((100000 : Nat) : ℚ) := by
      norm_num
    rw [hq, floor_rat_div]
  · have hq : (3 / 100000 : ℚ) * 10 ^ 5 = ((3 : Nat) : ℚ) := by norm_num
    rw [hq, Nat.floor_natCast]

theorem truncated_display_within_one_witness :
    (0 : ℚ) ≤ 1 / 10 ∧ (1 / 10 : ℚ) < 65536 ∧ 1 ≤ 4
    ∧ (manual_float ⌊(1 / 10 : ℚ) * 2 ^ 16⌋₊ 1 = ⌊(1 / 10 : ℚ) * 10 ^ 1⌋₊
        ∨ manual_float ⌊(1 / 10 : ℚ) * 2 ^ 16⌋₊ 1 + 1 = ⌊(1 / 10 : ℚ) * 10 ^ 1⌋₊) :=
  ⟨by norm_num, by norm_num, by decide,
    (truncated_display_within_one (1 / 10) (by norm_num) (by norm_num) 1 (by decide)).2.2.1⟩

/-! ## C24: the 64-bit intermediate is sufficient and necessary -/

/-- C24: for every 32-bit `raw` and every `N` in `0..6`, `(raw & 65535) * 10^N` is below
`2^64`, so the 64-bit multiply never wraps; for `N <= 4` the product is also below `2^32`;
for `N = 5` and `N = 6` the value `raw & 65535 = 65535` makes it at least `2^32`, so a
32-bit multiply would wrap. -/
theorem double_width_sufficient_and_necessary :
    (∀ raw N : Nat, raw < 2 ^ 32 → N ≤ 6 →
        (raw &&& FRACTION_MASK) * 10 ^ N < 2 ^ 64
        ∧ ((raw &&& FRACTION_MASK) % UINT64_MOD) * 10 ^ N % UINT64_MOD
            = (raw &&& FRACTION_MASK) * 10 ^ N
        ∧ fraction_digits raw N = (raw &&& FRACTION_MASK) * 10 ^ N / FRACTION_DIVISOR)
    ∧ (∀ raw N : Nat, raw < 2 ^ 32 → N ≤ 4 → (raw &&& FRACTION_MASK) * 10 ^ N < 2 ^ 32)
    ∧ (65535 &&& FRACTION_MASK = 65535
      ∧ 2 ^ 32 ≤ (65535 &&& FRACTION_MASK) * 10 ^ 5
      ∧ 2 ^ 32 ≤ (65535 &&& FRACTION_MASK) * 10 ^ 6
      ∧ (65535 &&& FRACTION_MASK) * 10 ^ 5 % UINT32_MOD ≠ (65535 &&& FRACTION_MASK) * 10 ^ 5
      ∧ (65535 &&& FRACTION_MASK) * 10 ^ 6 % UINT32_MOD
          ≠ (65535 &&& FRACTION_MASK) * 10 ^ 6) := by
  refine ⟨fun raw N _ hN => ?_, fun raw N _ hN => ?_, by decide⟩
  · have hp := pow_ten_le N hN
    have hr : raw % 65536 < 65536 := Nat.mod_lt _ (by decide)
    have hprod : raw % 65536 * 10 ^ N ≤ 65536 * 1000000 :=
      Nat.mul_le_mul (Nat.le_of_lt hr) hp
    have hfd := fraction_digits_eq raw N hN
    rw [hfd, and_fraction_mask, fraction_divisor_eq]
    refine ⟨by omega, ?_, rfl⟩
    rw [Nat.mod_eq_of_lt (show raw % 65536 < UINT64_MOD by simp only [UINT64_MOD]; omega)]
    exact Nat.mod_eq_of_lt (by simp only [UINT64_MOD]; omega)
  · have hp : 10 ^ N ≤ 10 ^ 4 := Nat.pow_le_pow_right (by decide) hN
    have hr : raw % 65536 < 65536 := Nat.mod_lt _ (by decide)
    have hprod : raw % 65536 * 10 ^ N ≤ 65536 * 10 ^ 4 :=
      Nat.mul_le_mul (Nat.le_of_lt hr) hp
    rw [and_fraction_mask]
    norm_num at hprod ⊢
    omega

theorem double_width_sufficient_and_necessary_witness :
    (14408557 : Nat) < 2 ^ 32 ∧ 6 ≤ 6 ∧ (14408557 &&& FRACTION_MASK) * 10 ^ 6 < 2 ^ 64 :=
  ⟨by decide, by decide,
    (double_width_sufficient_and_necessary.1 14408557 6 (by decide) (by decide)).1⟩

/-! ## C25: the demonstration output without rounding -/

/-- C25: `price = ((503 << 16) + (10 << 16)) * 3 / 7` is raw 14408557, with integer part
219 and fractional part 56173; it is displayed as 219, 219.8, 219.85, 219.857, 219.8571,
219.85713, 219.857131 for `N = 0..6`; these agree with the truncated decimal expansion of
the exact value 1539/7 for `N = 0..4` and differ from it for `N = 5` and `N = 6`. -/
theorem demonstration_output_unrounded :
    (main_price = ((503 <<< 16) + (10 <<< 16)) * 3 / 7 ∧ main_price = 14408557
      ∧ main_price >>> FRACTION_BITS = 219 ∧ main_price &&& FRACTION_MASK = 56173)
    ∧ (manual_float_text main_price 0 = String.toList "219"
      ∧ manual_float_text main_price 1 = String.toList "219.8"
      ∧ manual_float_text main_price 2 = String.toList "219.85"
      ∧ manual_float_text main_price 3 = String.toList "219.857"
      ∧ manual_float_text main_price 4 = String.toList "219.8571"
      ∧ manual_float_text main_price 5 = String.toList "219.85713"
      ∧ manual_float_text main_price 6 = String.toList "219.857131")
    ∧ (∀ N : Nat, N ≤ 4 →
        manual_float main_price N = ⌊((1539 : Nat) : ℚ) / ((7 : Nat) : ℚ) * 10 ^ N⌋₊)
    ∧ manual_float main_price 5 ≠ ⌊((1539 : Nat) : ℚ) / ((7 : Nat) : ℚ) * 10 ^ 5⌋₊
    ∧ manual_float main_price 6 ≠ ⌊((1539 : Nat) : ℚ) / ((7 : Nat) : ℚ) * 10 ^ 6⌋₊ := by
  refine ⟨by decide, by decide, fun N hN => ?_, ?_, ?_⟩
  · rw [floor_scaled]
    interval_cases N <;> decide
  · rw [floor_scaled]
    decide
  · rw [floor_scaled]
    decide

theorem demonstration_output_unrounded_witness :
    4 ≤ 4 ∧ manual_float main_price 4 = ⌊((1539 : Nat) : ℚ) / ((7 : Nat) : ℚ) * 10 ^ 4⌋₊ :=
  ⟨by decide, demonstration_output_unrounded.2.2.1 4 (by decide)⟩

/-! ## C26: the demonstration output with rounding -/

/-- The exact quotient rounded half-up to `N` decimal digits. -/
theorem floor_scaled_half (a b N : Nat) (hb : 0 < b) :
    ⌊(a : ℚ) / (b : ℚ) * 10 ^ N + 1 / 2⌋₊ = (2 * a * 10 ^ N + b) / (2 * b) := by
  have hb' : (b : ℚ) ≠ 0 := by exact_mod_cast (Nat.pos_iff_ne_zero.mp hb)
  have hq : (a : ℚ) / (b : ℚ) * 10 ^ N + 1 / 2
      = ((2 * a * 10 ^ N + b : Nat) : ℚ) / ((2 * b : Nat) : ℚ) := by
    push_cast
    field_simp
    ring
  rw [hq, floor_rat_div]

/-- C26: for `price = ((503 << 16) + (10 << 16)) * 3 / 7`, the displays of
`price + addendN` for `N = 0..4` are 220, 219.9, 219.86, 219.857, 219.8571, each equal to
the exact value 1539/7 rounded half-up to `N` decimal digits, while the `N = 5` display
(219.85713) is not the half-up rounding of 1539/7 to 5 digits. -/
theorem demonstration_output_rounded :
    (manual_float_text (price_rounded main_price 0) 0 = String.toList "220"
      ∧ manual_float_text (price_rounded main_price 1) 1 = String.toList "219.9"
      ∧ manual_float_text (price_rounded main_price 2) 2 = String.toList "219.86"
      ∧ manual_float_text (price_rounded main_price 3) 3 = String.toList "219.857"
      ∧ manual_float_text (price_rounded main_price 4) 4 = String.toList "219.8571"
      ∧ manual_float_text (price_rounded main_price 5) 5 = String.toList "219.85713")
    ∧ (∀ N : Nat, N ≤ 4 →
        manual_float (price_rounded main_price N) N
          = ⌊((1539 : Nat) : ℚ) / ((7 : Nat) : ℚ) * 10 ^ N + 1 / 2⌋₊)
    ∧ manual_float (price_rounded main_price 5) 5
        ≠ ⌊((1539 : Nat) : ℚ) / ((7 : Nat) : ℚ) * 10 ^ 5 + 1 / 2⌋₊ := by
  refine ⟨by decide, fun N hN => ?_, ?_⟩
  · rw [floor_scaled_half _ _ _ (by decide)]
    interval_cases N <;> decide
  · rw [floor_scaled_half _ _ _ (by decide)]
    decide

theorem demonstration_output_rounded_witness :
    2 ≤ 4 ∧ manual_float (price_rounded main_price 2) 2
      = ⌊((1539 : Nat) : ℚ) / ((7 : Nat) : ℚ) * 10 ^ 2 + 1 / 2⌋₊ :=
  ⟨by decide, demonstration_output_rounded.2.1 2 (by decide)⟩

/-! ## C27: the price of the earlier versions -/

/-- C27: in the versions that start from 500, `price = ((500 << 16) + (10 << 16)) * 3 / 7`
has integer part 218 and fractional part 37449, and its 1- to 5-digit truncated displays
are 5, 57, 571, 5714, 57142, the leading digits of the commented value 218.571428571. -/
theorem early_price_values :
    (early_price = ((500 <<< 16) + (10 <<< 16)) * 3 / 7
      ∧ early_price >>> FRACTION_BITS = 218 ∧ early_price &&& FRACTION_MASK = 37449)
    ∧ (fraction_digits early_price 1 = 5 ∧ fraction_digits early_price 2 = 57
      ∧ fraction_digits early_price 3 = 571 ∧ fraction_digits early_price 4 = 5714
      ∧ fraction_digits early_price 5 = 57142)
    ∧ (manual_float_text early_price 1 = String.toList "218.5"
      ∧ manual_float_text early_price 2 = String.toList "218.57"
      ∧ manual_float_text early_price 3 = String.toList "218.571"
      ∧ manual_float_text early_price 4 = String.toList "218.5714"
      ∧ manual_float_text early_price 5 = String.toList "218.57142")
    ∧ (∀ N : Nat, 1 ≤ N → N ≤ 5 →
        manual_float early_price N
          = ⌊((218571428571 : Nat) : ℚ) / ((1000000000 : Nat) : ℚ) * 10 ^ N⌋₊) := by
  refine ⟨by decide, by decide, by decide, fun N h1 h5 => ?_⟩
  rw [floor_scaled]
  interval_cases N <;> decide

theorem early_price_values_witness :
    (1 ≤ 5 ∧ 5 ≤ 5) ∧ manual_float early_price 5
      = ⌊((218571428571 : Nat) : ℚ) / ((1000000000 : Nat) : ℚ) * 10 ^ 5⌋₊ :=
  ⟨⟨by decide, by decide⟩, early_price_values.2.2.2 5 (by decide) (by decide)⟩

/-! ## C28: the rounded prices of `fixed_point_math3_copy.c` -/

/-- C28, as stated, fails: for `price = ((500 << 16) + (10 << 16)) * 3 / 7` the values
`price_rounded1` .. `price_rounded5` of `fixed_point_math3_copy.c` display as 219.0,
218.59, 218.572, 218.5714, 218.57142, not as 218.6, 218.57, 218.571, 218.5714,
218.57143. -/
theorem v3_rounded_displays_not_as_stated :
    (v3_addend 1 = 32768 ∧ v3_addend 2 = 1638 ∧ v3_addend 3 = 81 ∧ v3_addend 4 = 4
      ∧ v3_addend 5 = 0)
    ∧ (manual_float_text (v3_price_rounded early_price 1) 1 = String.toList "219.0"
      ∧ manual_float_text (v3_price_rounded early_price 2) 2 = String.toList "218.59"
      ∧ manual_float_text (v3_price_rounded early_price 3) 3 = String.toList "218.572"
      ∧ manual_float_text (v3_price_rounded early_price 4) 4 = String.toList "218.5714"
      ∧ manual_float_text (v3_price_rounded early_price 5) 5 = String.toList "218.57142")
    ∧ (manual_float_text (v3_price_rounded early_price 1) 1 ≠ String.toList "218.6"
      ∧ manual_float_text (v3_price_rounded early_price 2) 2 ≠ String.toList "218.57"
      ∧ manual_float_text (v3_price_rounded early_price 3) 3 ≠ String.toList "218.571"
      ∧ manual_float_text (v3_price_rounded early_price 5) 5
          ≠ String.toList "218.57143") := by
  decide

/-- C28, amended: in `fixed_point_math3_copy.c`, for
`price = ((500 << 16) + (10 << 16)) * 3 / 7`, `price_rounded4` displays as 218.5714, the
exact value 1530/7 rounded half-up to 4 decimal digits, and `price_rounded5` equals the
price (its addend is 0) and displays as 218.57142, the truncation of 1530/7 to 5 digits
and not its half-up rounding 218.57143. -/
theorem v3_rounded_displays :
    (manual_float_text (v3_price_rounded early_price 4) 4 = String.toList "218.5714"
      ∧ manual_float (v3_price_rounded early_price 4) 4
          = ⌊((1530 : Nat) : ℚ) / ((7 : Nat) : ℚ) * 10 ^ 4 + 1 / 2⌋₊)
    ∧ (v3_addend 5 = 0 ∧ v3_price_rounded early_price 5 = early_price
      ∧ manual_float_text (v3_price_rounded early_price 5) 5 = String.toList "218.57142"
      ∧ manual_float (v3_price_rounded early_price 5) 5
          = ⌊((1530 : Nat) : ℚ) / ((7 : Nat) : ℚ) * 10 ^ 5⌋₊
      ∧ manual_float (v3_price_rounded early_price 5) 5
          ≠ ⌊((1530 : Nat) : ℚ) / ((7 : Nat) : ℚ) * 10 ^ 5 + 1 / 2⌋₊
      ∧ ⌊((1530 : Nat) : ℚ) / ((7 : Nat) : ℚ) * 10 ^ 5 + 1 / 2⌋₊ = 21857143) := by
  rw [floor_scaled, floor_scaled_half _ _ _ (by decide), floor_scaled_half _ _ _ (by decide)]
  decide

/-! ## C29: the resolution diagnostic prints once -/

/-- Every index from 0 to 9 of `POW_BASE_10` holds ten to that index. -/
theorem pow_base_10_entry (N : Nat) (hN : N ≤ 9) :
    POW_BASE_10[N % 2 ^ 8]? = some (10 ^ N) := by
  interval_cases N <;> rfl

/-- One call of the diagnostic: the flag is set, and the warning printed, exactly when the
flag was clear and the digit count is at least 5. -/
theorem print_step (flag : Bool) (N : Nat) (hN : N ≤ 9) :
    print_if_error_introduced flag N
      = some (flag || decide (5 ≤ N), !flag && decide (5 ≤ N)) := by
  cases flag <;> interval_cases N <;> rfl

/-- A sequence of calls with arguments in `0..9` always runs to its end; the warning is
printed at most once, at the first call whose argument is at least 5, and only if the
flag was clear at the start. -/
theorem call_sequence_spec (calls : List Nat) : ∀ flag : Bool, (∀ n ∈ calls, n ≤ 9) →
    ∃ last prints, call_sequence flag calls = some (last, prints)
      ∧ prints.length = calls.length
      ∧ prints.count true ≤ 1
      ∧ (flag = true → prints.count true = 0)
      ∧ (last = (flag || calls.any (fun n => decide (5 ≤ n))))
      ∧ ∀ i : Nat, prints[i]? = some true ↔
          (flag = false ∧ (∃ n, calls[i]? = some n ∧ 5 ≤ n)
            ∧ ∀ j, j < i → ∀ m, calls[j]? = some m → m < 5) := by
  induction calls with
  | nil =>
    intro flag _
    exact ⟨flag, [], rfl, rfl, by simp, by simp, by simp, by simp⟩
  | cons n rest ih =>
    intro flag hall
    have hn : n ≤ 9 := hall n (List.mem_cons_self n rest)
    obtain ⟨last, prints, hrun, hlen, hcount, hset, hlast, hidx⟩ :=
      ih (flag || decide (5 ≤ n)) (fun m hm => hall m (List.mem_cons_of_mem n hm))
    refine ⟨last, (!flag && decide (5 ≤ n)) :: prints, ?_, ?_, ?_, ?_, ?_, ?_⟩
    · simp only [call_sequence, print_step flag n hn, hrun]
    · simp [hlen]
    · cases flag
      · by_cases h5 : 5 ≤ n
        · have h0 := hset (by simp [h5])
          simp [h5, h0]
        · simpa [h5] using hcount
      · have h0 := hset (by simp)
        simp [h0]
    · intro hflag
      have h0 := hset (by simp [hflag])
      simp [hflag, h0]
    · rw [hlast]
      simp [Bool.or_assoc]
    · intro i
      cases i with
      | zero =>
        cases flag <;> simp
      | succ k =>
        simp only [List.getElem?_cons_succ]
        rw [hidx k]
        constructor
        · rintro ⟨hf, hex, hbefore⟩
          have hf' : flag = false ∧ ¬ 5 ≤ n := by
            cases flag <;> simp_all
          refine ⟨hf'.1, hex, fun j hj m hm => ?_⟩
          cases j with
          | zero =>
            simp at hm
            omega
          | succ j' =>
            simp only [List.getElem?_cons_succ] at hm
            exact hbefore j' (by omega) m hm
        · rintro ⟨hf, hex, hbefore⟩
          have hn5 : n < 5 := hbefore 0 (by omega) n (by simp)
          refine ⟨by simp [hf]; omega, hex, fun j hj m hm => ?_⟩
          exact hbefore (j + 1) (by omega) m (by simpa using hm)
/-- C29: `print_if_error_introduced(N)`, for `N` in `0..9`, prints its warning iff the
`already_found` flag is clear and `10^N > 65536`, that is iff `N >= 5` (4 is
`floor(log10 (2^16))`, the largest `N` with `10^N <= 2^16`), and then sets the flag; over
any sequence of calls the warning is printed at most once, at the first call with
`N >= 5`, and for the sequence `N = 0, 1, ..., 6` of `main` exactly once, at `N = 5`. -/
theorem diagnostic_prints_once :
    (∀ (flag : Bool) (N : Nat), N ≤ 9 →
        ∃ last printed, print_if_error_introduced flag N = some (last, printed)
          ∧ (printed = true ↔ flag = false ∧ FRACTION_DIVISOR < 10 ^ N)
          ∧ (printed = true ↔ flag = false ∧ 5 ≤ N)
          ∧ last = (flag || printed))
    ∧ (Nat.log 10 (2 ^ 16) = 4 ∧ 10 ^ 4 ≤ 2 ^ 16 ∧ 2 ^ 16 < 10 ^ 5)
    ∧ (∀ (flag : Bool) (calls : List Nat), (∀ n ∈ calls, n ≤ 9) →
        ∃ last prints, call_sequence flag calls = some (last, prints)
          ∧ prints.length = calls.length
          ∧ prints.count true ≤ 1
          ∧ ∀ i : Nat, prints[i]? = some true ↔
              (flag = false ∧ (∃ n, calls[i]? = some n ∧ 5 ≤ n)
                ∧ ∀ j, j < i → ∀ m, calls[j]? = some m → m < 5))
    ∧ call_sequence false [0, 1, 2, 3, 4, 5, 6]
        = some (true, [false, false, false, false, false, true, false]) := by
  refine ⟨fun flag N hN => ?_, ⟨?_, by norm_num, by norm_num⟩, fun flag calls hall => ?_,
    by decide⟩
  · refine ⟨_, _, print_step flag N hN, ?_, ?_, ?_⟩
    · rw [fraction_divisor_eq]
      cases flag <;> interval_cases N <;> simp
    · cases flag <;> simp
    · cases flag <;> simp
  · exact Nat.log_eq_of_pow_le_of_lt_pow (by norm_num) (by norm_num)
  · obtain ⟨last, prints, hrun, hlen, hcount, -, -, hidx⟩ := call_sequence_spec calls flag hall
    exact ⟨last, prints, hrun, hlen, hcount, hidx⟩

theorem diagnostic_prints_once_witness :
    5 ≤ 9 ∧ ∃ last printed, print_if_error_introduced false 5 = some (last, printed)
      ∧ (printed = true ↔ false = false ∧ FRACTION_DIVISOR < 10 ^ 5)
      ∧ (printed = true ↔ false = false ∧ 5 ≤ 5)
      ∧ last = (false || printed) :=
  ⟨by decide, diagnostic_prints_once.1 false 5 (by decide)⟩

/-! ## C30: rounding wraps near the top of the range -/

/-- C30: for every 32-bit `raw` with `raw >= 2^32 - 32768`, the 32-bit sum `raw + addend0`
wraps to `raw + 32768 - 2^32` and its integer part is 0, where the unwrapped sum has
integer part 65536; for every `raw < 2^32 - 32768` the sum does not wrap and its integer
part is at least that of `raw`. -/
theorem rounding_wraps_near_top (raw : Nat) (hraw : raw < 2 ^ 32) :
    (2 ^ 32 - 32768 ≤ raw →
        price_rounded raw 0 = raw + 32768 - 2 ^ 32
        ∧ price_rounded raw 0 >>> FRACTION_BITS = 0
        ∧ (raw + 32768) >>> FRACTION_BITS = 65536)
    ∧ (raw < 2 ^ 32 - 32768 →
        price_rounded raw 0 = raw + 32768
        ∧ raw >>> FRACTION_BITS ≤ price_rounded raw 0 >>> FRACTION_BITS) := by
  have ha : addend 0 = 32768 := addend_values.1
  have hp : price_rounded raw 0 = (raw + 32768) % 2 ^ 32 := by
    unfold price_rounded
    rw [ha]
    rfl
  rw [hp, shiftRight_fraction_bits, shiftRight_fraction_bits, shiftRight_fraction_bits]
  norm_num at hraw ⊢
  omega

theorem rounding_wraps_near_top_witness :
    (4294967295 : Nat) < 2 ^ 32 ∧ 2 ^ 32 - 32768 ≤ 4294967295
    ∧ price_rounded 4294967295 0 >>> FRACTION_BITS = 0 :=
  ⟨by decide, by decide,
    ((rounding_wraps_near_top 4294967295 (by decide)).1 (by decide)).2.1⟩

/-! ## C31: multiplying then dividing a price -/

/-- The price is the exact scaled value, rounded down to a multiple of `2^-16`. -/
theorem scaled_price_eq (n m k d : Nat) (h : (n + m) * k ≤ 65535) :
    scaled_price n m k d = (n + m) * k * 65536 / d := by
  unfold scaled_price price_div
  rcases Nat.eq_zero_or_pos k with rfl | hk
  · simp [price_mul]
  · have hnm : n + m ≤ 65535 := Nat.le_trans (Nat.le_mul_of_pos_right _ hk) h
    have hadd : price_add (NUM_2_FIXED_PT n) m = (n + m) * 65536 := by
      simp only [price_add, NUM_2_FIXED_PT, shiftLeft_fraction_bits, UINT32_MOD]
      omega
    have hprod : (n + m) * 65536 * k = (n + m) * k * 65536 := by ring
    unfold price_mul
    rw [hadd, hprod, Nat.mod_eq_of_lt (by simp only [UINT32_MOD]; omega)]

/-- C31, as stated, fails on the words "without wrapping": for `n = 65536, m = 0, k = 0,
d = 1` the bound `(n + m) * k <= 65535` holds, yet the 32-bit shift `n << 16` wraps to 0
(the result, 0, is still the exact one). -/
theorem shift_wraps_when_factor_zero :
    (65536 + 0) * 0 ≤ 65535 ∧ 0 < 1
    ∧ 65536 <<< FRACTION_BITS = 4294967296
    ∧ NUM_2_FIXED_PT 65536 = 0
    ∧ NUM_2_FIXED_PT 65536 ≠ 65536 <<< FRACTION_BITS
    ∧ scaled_price 65536 0 0 1 = 0 := by
  decide

/-- C31, amended: for all naturals `n`, `m`, `k` and `d > 0` with `(n + m) * k <= 65535`,
the 32-bit computation `((n << 16) + (m << 16)) * k / d` equals
`floor((n + m) * k * 2^16 / d)`; no step of it wraps when `n + m <= 65535`, which the bound
gives for every `k >= 1`; its integer part is `floor((n + m) * k / d)` and the represented
value `raw / 2^16` lies in the interval `((n+m)*k/d - 2^-16, (n+m)*k/d]`. -/
theorem multiply_then_divide_exact (n m k d : Nat) (hd : 0 < d) (h : (n + m) * k ≤ 65535) :
    scaled_price n m k d = (n + m) * k * 2 ^ 16 / d
    ∧ scaled_price n m k d = ⌊(((n + m) * k : Nat) : ℚ) * 2 ^ 16 / (d : ℚ)⌋₊
    ∧ (1 ≤ k → n + m ≤ 65535)
    ∧ (n + m ≤ 65535 →
        NUM_2_FIXED_PT n = n <<< 16
        ∧ price_add (NUM_2_FIXED_PT n) m = (n <<< 16) + (m <<< 16)
        ∧ price_mul (price_add (NUM_2_FIXED_PT n) m) k = ((n <<< 16) + (m <<< 16)) * k)
    ∧ FIXED_PT_2_NUM (scaled_price n m k d) = (n + m) * k / d
    ∧ (((n + m) * k : Nat) : ℚ) / (d : ℚ) - 1 / 2 ^ 16 < (scaled_price n m k d : ℚ) / 2 ^ 16
    ∧ (scaled_price n m k d : ℚ) / 2 ^ 16 ≤ (((n + m) * k : Nat) : ℚ) / (d : ℚ) := by
  have hraw := scaled_price_eq n m k d h
  have hd' : (0 : ℚ) < (d : ℚ) := by exact_mod_cast hd
  have hlo : (n + m) * k * 65536 / d * d ≤ (n + m) * k * 65536 := Nat.div_mul_le_self _ _
  have hhi : (n + m) * k * 65536 < ((n + m) * k * 65536 / d + 1) * d := by
    rw [Nat.mul_comm _ d]
    exact Nat.lt_mul_div_succ _ hd
  have hpos : 1 ≤ k → n + m ≤ 65535 := fun hk =>
    Nat.le_trans (Nat.le_mul_of_pos_right _ hk) h
  have hsteps : n + m ≤ 65535 →
      NUM_2_FIXED_PT n = n <<< 16
      ∧ price_add (NUM_2_FIXED_PT n) m = (n <<< 16) + (m <<< 16)
      ∧ price_mul (price_add (NUM_2_FIXED_PT n) m) k = ((n <<< 16) + (m <<< 16)) * k := by
    intro hnm
    have h1 : NUM_2_FIXED_PT n = n * 65536 := by
      simp only [NUM_2_FIXED_PT, shiftLeft_fraction_bits, UINT32_MOD]
      omega
    have h2 : price_add (NUM_2_FIXED_PT n) m = n * 65536 + m * 65536 := by
      simp only [price_add, h1, shiftLeft_fraction_bits, UINT32_MOD]
      omega
    have h3 : (n * 65536 + m * 65536) * k = (n + m) * k * 65536 := by ring
    have h4 : price_mul (price_add (NUM_2_FIXED_PT n) m) k = (n * 65536 + m * 65536) * k := by
      unfold price_mul
      rw [h2, h3]
      exact Nat.mod_eq_of_lt (by simp only [UINT32_MOD]; omega)
    simp only [Nat.shiftLeft_eq]
    norm_num
    exact ⟨h1, h2, h4⟩
  rw [hraw]
  refine ⟨by norm_num, ?_, hpos, hsteps, ?_, ?_, ?_⟩
  · have hq : (((n + m) * k : Nat) : ℚ) * 2 ^ 16 / (d : ℚ)
        = (((n + m) * k * 65536 : Nat) : ℚ) / (d : ℚ) := by
      push_cast
      norm_num
    rw [hq, floor_rat_div]
  · unfold FIXED_PT_2_NUM
    rw [shiftRight_fraction_bits, Nat.div_div_eq_div_mul,
      Nat.mul_div_mul_right _ _ (by decide : 0 < 65536)]
  · generalize (n + m) * k = A at hlo hhi ⊢
    have hhiq : (A : ℚ) * 65536 < (((A * 65536 / d : Nat) : ℚ) + 1) * (d : ℚ) := by
      exact_mod_cast hhi
    rw [div_sub_div _ _ (ne_of_gt hd') (by norm_num),
      div_lt_div_iff₀ (by positivity) (by norm_num)]
    nlinarith
  · generalize (n + m) * k = A at hlo hhi ⊢
    have hloq : ((A * 65536 / d : Nat) : ℚ) * (d : ℚ) ≤ (A : ℚ) * 65536 := by
      exact_mod_cast hlo
    rw [div_le_div_iff₀ (by norm_num) hd']
    nlinarith

theorem multiply_then_divide_exact_witness :
    0 < 7 ∧ (503 + 10) * 3 ≤ 65535
    ∧ scaled_price 503 10 3 7 = (503 + 10) * 3 * 2 ^ 16 / 7
    ∧ FIXED_PT_2_NUM (scaled_price 503 10 3 7) = (503 + 10) * 3 / 7 :=
  ⟨by decide, by decide,
    (multiply_then_divide_exact 503 10 3 7 (by decide) (by decide)).1,
    (multiply_then_divide_exact 503 10 3 7 (by decide) (by decide)).2.2.2.2.1⟩

/-! ## C32: truncated addends err downward, by at most one unit -/

/-- C32: for every `N` in `0..4` and every 32-bit `raw` with `raw + addend(N) < 2^32`, with
`D = floor((raw + addend(N)) * 10^N / 2^16)` the displayed number and
`E = floor(raw * 10^N / 2^16 + 1/2)` the exact half-up rounding, `E - 1 <= D <= E`. -/
theorem truncated_addends_err_downward (raw N : Nat) (hN : N ≤ 4) (_hraw : raw < 2 ^ 32)
    (hsum : raw + addend N < 2 ^ 32) :
    manual_float (price_rounded raw N) N = (raw + addend N) * 10 ^ N / 2 ^ 16
    ∧ ⌊(raw : ℚ) * 10 ^ N / 2 ^ 16 + 1 / 2⌋₊ - 1 ≤ manual_float (price_rounded raw N) N
    ∧ ⌊(raw : ℚ) * 10 ^ N / 2 ^ 16 + 1 / 2⌋₊ ≤ manual_float (price_rounded raw N) N + 1
    ∧ manual_float (price_rounded raw N) N ≤ ⌊(raw : ℚ) * 10 ^ N / 2 ^ 16 + 1 / 2⌋₊ := by
  have hq : (raw : ℚ) * 10 ^ N / 2 ^ 16 + 1 / 2
      = ((raw * 10 ^ N + 32768 : Nat) : ℚ) / ((65536 : Nat) : ℚ) := by
    push_cast
    ring
  have hp : price_rounded raw N = raw + addend N :=
    Nat.mod_eq_of_lt (by simpa [UINT32_MOD] using hsum)
  rw [hq, floor_rat_div, hp, manual_float_eq _ N (by omega)]
  obtain ⟨h0, h1, h2, h3, h4⟩ := addend_values
  have hcases : N = 0 ∨ N = 1 ∨ N = 2 ∨ N = 3 ∨ N = 4 := by omega
  rcases hcases with rfl | rfl | rfl | rfl | rfl
  · rw [h0]; norm_num
  · rw [h1]; norm_num; omega
  · rw [h2]; norm_num; omega
  · rw [h3]; norm_num; omega
  · rw [h4]; norm_num; omega

theorem truncated_addends_err_downward_witness :
    1 ≤ 4 ∧ (16384 : Nat) < 2 ^ 32 ∧ 16384 + addend 1 < 2 ^ 32
    ∧ ⌊((16384 : Nat) : ℚ) * 10 ^ 1 / 2 ^ 16 + 1 / 2⌋₊
        ≤ manual_float (price_rounded 16384 1) 1 + 1 :=
  ⟨by decide, by decide, by rw [addend_values.2.1]; decide,
    (truncated_addends_err_downward 16384 1 (by decide) (by decide)
      (by rw [addend_values.2.1]; decide)).2.2.1⟩

/-! ## C33 and C34: error bounds of the two splits -/

/-- Dividing two parts separately and recombining with weight `c` loses at most `c`. -/
theorem split_div_bounds (a b c d : Nat) (hd : 0 < d) :
    c * (a / d) + b / d ≤ (c * a + b) / d ∧ (c * a + b) / d ≤ c * (a / d) + b / d + c := by
  constructor
  · exact Nat.le_trans (Nat.add_le_add_right (Nat.mul_div_le_mul_div_assoc c a d) _)
      (div_add_div_le (c * a) b d hd)
  · apply Nat.le_of_lt_succ
    rw [Nat.div_lt_iff_lt_mul hd]
    have ha : a < d * (a / d + 1) := Nat.lt_mul_div_succ a hd
    have hb : b < d * (b / d + 1) := Nat.lt_mul_div_succ b hd
    have hca : c * a ≤ c * (d * (a / d + 1)) := Nat.mul_le_mul_left c (Nat.le_of_lt ha)
    calc c * a + b < c * (d * (a / d + 1)) + d * (b / d + 1) := by omega
      _ = (c * (a / d) + b / d + c).succ * d := by
        rw [Nat.succ_eq_add_one]
        ring

/-- C33: for every 16-bit `x`, every `d > 0` and every `n` with `n <= 257` and `n <= d`, no
step of the 16-bit computation `(((x>>8)*n/d) << 8) + ((x&0xFF)*n/d)` wraps, and its
result `R` satisfies `0 <= floor(x * n / d) - R <= 256`; for `x = 65401, n = 99, d = 127`
the difference is 199. -/
theorem right_aligned_error_bound (x n d : Nat) (hx : x < 2 ^ 16) (hd : 0 < d)
    (hn : n ≤ 257) (hnd : n ≤ d) :
    (right_upper8 x * n < 2 ^ 16 ∧ right_lower8 x * n < 2 ^ 16
      ∧ (right_upper8 x * n / d) <<< 8 < 2 ^ 16
      ∧ ((right_upper8 x * n / d) <<< 8) + right_lower8 x * n / d < 2 ^ 16)
    ∧ right_aligned x n d = (((x >>> 8) * n / d) <<< 8) + (x &&& 0xFF) * n / d
    ∧ right_aligned x n d ≤ x * n / d
    ∧ x * n / d - right_aligned x n d ≤ 256
    ∧ 65401 * 99 / 127 - right_aligned 65401 99 127 = 199 := by
  have hH : x / 256 ≤ 255 := by omega
  have hL : x % 256 ≤ 255 := by omega
  have hHn : x / 256 * n ≤ 255 * 257 := Nat.mul_le_mul hH hn
  have hLn : x % 256 * n ≤ 255 * 257 := Nat.mul_le_mul hL hn
  have hHq : x / 256 * n / d ≤ x / 256 := mul_div_le_of_le _ n d hnd
  have hLq : x % 256 * n / d ≤ x % 256 := mul_div_le_of_le _ n d hnd
  have hmask : x &&& 0xFF = x % 256 := Nat.and_pow_two_sub_one_eq_mod x 8
  have hxn : 256 * (x / 256 * n) + x % 256 * n = x * n := by
    rw [← Nat.mul_assoc, ← Nat.add_mul, Nat.div_add_mod]
  obtain ⟨hlow, hhigh⟩ := split_div_bounds (x / 256 * n) (x % 256 * n) 256 d hd
  rw [hxn] at hlow hhigh
  rw [right_aligned_eq x n d hx hn hnd, right_upper8_eq x hx, right_lower8_eq, hmask]
  simp only [Nat.shiftLeft_eq, Nat.shiftRight_eq_div_pow]
  norm_num
  refine ⟨⟨by omega, by omega, by omega, by omega⟩, by omega, by omega, by omega, by decide⟩

theorem right_aligned_error_bound_witness :
    (65401 : Nat) < 2 ^ 16 ∧ 0 < 127 ∧ 99 ≤ 257 ∧ 99 ≤ 127
    ∧ 65401 * 99 / 127 - right_aligned 65401 99 127 ≤ 256 :=
  ⟨by decide, by decide, by decide, by decide,
    (right_aligned_error_bound 65401 99 127 (by decide) (by decide) (by decide)
      (by decide)).2.2.2.1⟩

/-- C34: for every 16-bit `x`, every `d > 0` and every `n` with `n <= 16` and `n <= d`, no
step of the 16-bit computation
`((((x>>4)&0x0FF0)*n/d) << 4) + ((((x<<4)&0x0FF0)*n/d) >> 4)` wraps, and its result `C`
satisfies `0 <= floor(x * n / d) - C <= 16`. -/
theorem centered_error_bound (x n d : Nat) (hx : x < 2 ^ 16) (hd : 0 < d)
    (hn : n ≤ 16) (hnd : n ≤ d) :
    (center_upper8 x * n < 2 ^ 16 ∧ center_lower8 x * n < 2 ^ 16
      ∧ (center_upper8 x * n / d) <<< 4 < 2 ^ 16
      ∧ ((center_upper8 x * n / d) <<< 4) + (center_lower8 x * n / d) >>> 4 < 2 ^ 16)
    ∧ centered x n d
        = ((((x >>> 4) &&& 0x0FF0) * n / d) <<< 4) + (((x <<< 4) &&& 0x0FF0) * n / d) >>> 4
    ∧ centered x n d ≤ x * n / d
    ∧ x * n / d - centered x n d ≤ 16 := by
  have hH : x / 256 * 16 ≤ 4080 := by omega
  have hL : x % 256 * 16 ≤ 4080 := by omega
  have hHn : x / 256 * 16 * n ≤ 4080 * 16 := Nat.mul_le_mul hH hn
  have hLn : x % 256 * 16 * n ≤ 4080 * 16 := Nat.mul_le_mul hL hn
  have hHq : x / 256 * 16 * n / d ≤ x / 256 * 16 := mul_div_le_of_le _ n d hnd
  have hLq : x % 256 * n / d ≤ x % 256 := mul_div_le_of_le _ n d hnd
  have hlowterm : x % 256 * 16 * n / d / 16 = x % 256 * n / d := by
    rw [Nat.div_div_eq_div_mul, Nat.mul_comm d 16,
      show x % 256 * 16 * n = 16 * (x % 256 * n) by ring,
      Nat.mul_div_mul_left _ _ (by decide : 0 < 16)]
  have hup : (x >>> 4) &&& 0x0FF0 = x / 256 * 16 := by
    rw [and_0FF0, Nat.shiftRight_eq_div_pow]
    omega
  have hdown : (x <<< 4) &&& 0x0FF0 = x % 256 * 16 := by
    rw [and_0FF0, Nat.shiftLeft_eq]
    omega
  have hxn : 16 * (x / 256 * 16 * n) + x % 256 * n = x * n := by
    have h256 : 16 * (x / 256 * 16 * n) = 256 * (x / 256) * n := by ring
    rw [h256, ← Nat.add_mul, Nat.div_add_mod]
  obtain ⟨hlow, hhigh⟩ := split_div_bounds (x / 256 * 16 * n) (x % 256 * n) 16 d hd
  rw [hxn] at hlow hhigh
  rw [centered_eq x n d hx hd hn hnd, center_upper8_eq x hx, center_lower8_eq, hup, hdown]
  simp only [Nat.shiftLeft_eq, Nat.shiftRight_eq_div_pow]
  norm_num
  rw [hlowterm]
  refine ⟨⟨by omega, by omega, by omega, by omega⟩, by omega, by omega, by omega⟩

theorem centered_error_bound_witness :
    (300 : Nat) < 2 ^ 16 ∧ 0 < 300 ∧ 16 ≤ 16 ∧ 16 ≤ 300
    ∧ 300 * 16 / 300 - centered 300 16 300 ≤ 16 :=
  ⟨by decide, by decide, by decide, by decide,
    (centered_error_bound 300 16 300 (by decide) (by decide) (by decide)
      (by decide)).2.2.2⟩

/-! ## C35: scaling by n/n is the identity -/

/-- C35: for every 16-bit `x`, `right_aligned(x, n, n) = x` for every `n` in `1..257` and
`centered(x, n, n) = x` for every `n` in `1..16`; in particular
`((x >> 8) << 8) + (x & 0xFF) = x` and
`(((x >> 4) & 0x0FF0) << 4) + (((x << 4) & 0x0FF0) >> 4) = x`. -/
theorem split_is_lossless (x : Nat) (hx : x < 2 ^ 16) :
    (∀ n : Nat, 1 ≤ n → n ≤ 257 → right_aligned x n n = x)
    ∧ (∀ n : Nat, 1 ≤ n → n ≤ 16 → centered x n n = x)
    ∧ ((x >>> 8) <<< 8) + (x &&& 0xFF) = x
    ∧ (((x >>> 4) &&& 0x0FF0) <<< 4) + (((x <<< 4) &&& 0x0FF0) >>> 4) = x := by
  have hmask : x &&& 0xFF = x % 256 := Nat.and_pow_two_sub_one_eq_mod x 8
  have hup : (x >>> 4) &&& 0x0FF0 = x / 256 * 16 := by
    rw [and_0FF0, Nat.shiftRight_eq_div_pow]
    omega
  have hdown : (x <<< 4) &&& 0x0FF0 = x % 256 * 16 := by
    rw [and_0FF0, Nat.shiftLeft_eq]
    omega
  refine ⟨fun n h1 h257 => ?_, fun n h1 h16 => ?_, ?_, ?_⟩
  · rw [right_aligned_eq x n n hx h257 (Nat.le_refl n), Nat.mul_div_cancel _ h1,
      Nat.mul_div_cancel _ h1]
    omega
  · rw [centered_eq x n n hx h1 h16 (Nat.le_refl n), Nat.mul_div_cancel _ h1,
      Nat.mul_div_cancel _ h1]
    omega
  · rw [hmask]
    simp only [Nat.shiftLeft_eq, Nat.shiftRight_eq_div_pow]
    omega
  · rw [hup, hdown]
    simp only [Nat.shiftLeft_eq, Nat.shiftRight_eq_div_pow]
    omega

theorem split_is_lossless_witness :
    (65401 : Nat) < 2 ^ 16 ∧ (1 ≤ 257 ∧ 257 ≤ 257) ∧ right_aligned 65401 257 257 = 65401
    ∧ (1 ≤ 16 ∧ 16 ≤ 16) ∧ centered 65401 16 16 = 65401 :=
  ⟨by decide, ⟨by decide, by decide⟩,
    (split_is_lossless 65401 (by decide)).1 257 (by decide) (by decide),
    ⟨by decide, by decide⟩,
    (split_is_lossless 65401 (by decide)).2.1 16 (by decide) (by decide)⟩

/-! ## C36: the low half of the centered split gains nothing -/

/-- C36: for every 16-bit `x`, every `d > 0` and every `n <= 16`,
`((((x << 4) & 0x0FF0) * n) / d) >> 4` equals `((x & 0xFF) * n) / d`, the low-half term of
the far-right split, also with the 16-bit stores of the code; so the two strategies
recombine the same low term and differ only in the high-half term. -/
theorem centered_low_term_same (x n d : Nat) (_hx : x < 2 ^ 16) (_hd : 0 < d)
    (hn : n ≤ 16) :
    ((((x <<< 4) &&& 0x0FF0) * n) / d) >>> 4 = ((x &&& 0xFF) * n) / d
    ∧ ((center_lower8 x * n % UINT16_MOD) / d % UINT16_MOD) >>> 4
        = (right_lower8 x * n % UINT16_MOD) / d % UINT16_MOD
    ∧ centered x n d
        = ((((center_upper8 x * n % UINT16_MOD) / d % UINT16_MOD) <<< 4)
            + (right_lower8 x * n % UINT16_MOD) / d % UINT16_MOD) % UINT16_MOD
    ∧ right_aligned x n d
        = ((((right_upper8 x * n % UINT16_MOD) / d % UINT16_MOD) <<< 8)
            + (right_lower8 x * n % UINT16_MOD) / d % UINT16_MOD) % UINT16_MOD := by
  have hL : x % 256 ≤ 255 := by omega
  have hLn : x % 256 * n ≤ 255 * 16 := Nat.mul_le_mul hL hn
  have hL16n : x % 256 * 16 * n ≤ 4080 * 16 := Nat.mul_le_mul (by omega) hn
  have hq1 : x % 256 * n / d ≤ x % 256 * n := Nat.div_le_self _ _
  have hq2 : x % 256 * 16 * n / d ≤ x % 256 * 16 * n := Nat.div_le_self _ _
  have hmask : x &&& 0xFF = x % 256 := Nat.and_pow_two_sub_one_eq_mod x 8
  have hdown : (x <<< 4) &&& 0x0FF0 = x % 256 * 16 := by
    rw [and_0FF0, Nat.shiftLeft_eq]
    omega
  have hlowterm : x % 256 * 16 * n / d / 16 = x % 256 * n / d := by
    rw [Nat.div_div_eq_div_mul, Nat.mul_comm d 16,
      show x % 256 * 16 * n = 16 * (x % 256 * n) by ring,
      Nat.mul_div_mul_left _ _ (by decide : 0 < 16)]
  have hpure : ((((x <<< 4) &&& 0x0FF0) * n) / d) >>> 4 = ((x &&& 0xFF) * n) / d := by
    rw [hdown, hmask, Nat.shiftRight_eq_div_pow]
    norm_num
    exact hlowterm
  have hcode : ((center_lower8 x * n % UINT16_MOD) / d % UINT16_MOD) >>> 4
      = (right_lower8 x * n % UINT16_MOD) / d % UINT16_MOD := by
    rw [center_lower8_eq, right_lower8_eq]
    simp only [UINT16_MOD]
    rw [Nat.mod_eq_of_lt (show x % 256 * 16 * n < 2 ^ 16 by omega),
      Nat.mod_eq_of_lt (show x % 256 * n < 2 ^ 16 by omega),
      Nat.mod_eq_of_lt (show x % 256 * 16 * n / d < 2 ^ 16 by omega),
      Nat.mod_eq_of_lt (show x % 256 * n / d < 2 ^ 16 by omega),
      Nat.shiftRight_eq_div_pow]
    norm_num
    exact hlowterm
  refine ⟨hpure, hcode, ?_, rfl⟩
  rw [← hcode]
  rfl

theorem centered_low_term_same_witness :
    (65401 : Nat) < 2 ^ 16 ∧ 0 < 127 ∧ 16 ≤ 16
    ∧ ((((65401 <<< 4) &&& 0x0FF0) * 16) / 127) >>> 4 = ((65401 &&& 0xFF) * 16) / 127 :=
  ⟨by decide, by decide, by decide,
    (centered_low_term_same 65401 16 127 (by decide) (by decide) (by decide)).1⟩

/-! ## C37: the far-right split is not monotone -/

/-- C37: there exist 16-bit `x < x'` and `n <= d` with `n <= 257` such that
`right_aligned(x, n, d) > right_aligned(x', n, d)`: for `n = 16, d = 127` it returns 32
for `x = 255` but 0 for `x = 256`, although `floor(256 * 16 / 127) = 32`. -/
theorem right_aligned_not_monotone :
    (∃ x x' n d : Nat, x < x' ∧ x' < 2 ^ 16 ∧ 0 < d ∧ n ≤ d ∧ n ≤ 257
      ∧ right_aligned x' n d < right_aligned x n d)
    ∧ right_aligned 255 16 127 = 32
    ∧ right_aligned 256 16 127 = 0
    ∧ 256 * 16 / 127 = 32 := by
  refine ⟨⟨255, 256, 16, 127, by decide, by decide, by decide, by decide, by decide,
    by decide⟩, by decide, by decide, by decide⟩

end FixedPointMath
